import Mathlib

/-!
Shallow embedding of the `PLP-PM-2025-GRP3` data-preparation pipeline
(`YouTubeCaptionUpdater.py`, `YouTubeCommentUpdater.py`,
`TopicModelingWithNMF.py`, `TopicModellingWithBert.py`).

The shared JSON store `author -> playlist_id -> video_id -> record` is
embedded as nested association lists (Python dicts preserve insertion
order, and iteration order matters to the scripts).  External libraries
(YouTube APIs, `TfidfVectorizer`, `NMF`, BERT, `KMeans`, `sent_tokenize`,
`CountVectorizer`) are abstracted as function parameters; everything the
repository's own code computes is embedded directly.  Matrix entries are
modelled as rationals.  A script run that writes the JSON file is
modelled as returning `some store'`; a run that ends without writing
(early return, or an uncaught exception) returns `none`.
-/

namespace YTPipeline

/-- One stored comment, as written into the JSON `comments` field by
`YouTubeCommentUpdater.extract_comments`. -/
structure CommentEntry where
  Timestamp : String
  Comment : String
deriving Repr, DecidableEq

/-- A video record of the store: the three optional fields `captions`,
`comments` and `topic` of the JSON schema. -/
structure VideoRecord where
  captions : Option String
  comments : Option (List CommentEntry)
  topic : Option String
deriving Repr, DecidableEq

/-- `(author, playlist_id, video_id)` triples, as built by both
`extract_captions` implementations. -/
abbrev Triple := String × String × String

abbrev Videos := List (String × VideoRecord)

abbrev Playlists := List (String × Videos)

/-- The in-memory JSON store `self.data`. -/
abbrev Store := List (String × Playlists)

/-- Dictionary lookup on an association list (first binding wins, as in a
Python dict where keys are unique). -/
def alookup {α : Type} (k : String) : List (String × α) → Option α
  | [] => none
  | (k', x) :: rest => if k = k' then some x else alookup k rest

/-- In-place update of the value bound to key `k` (Python
`d[k] = f(d[k])` on an existing key); a missing key leaves the list
unchanged (in Python it would raise `KeyError`; the claims about
index/lookup safety are settled separately). -/
def updateA {α : Type} (k : String) (f : α → α) : List (String × α) → List (String × α)
  | [] => []
  | (k', x) :: rest => if k = k' then (k', f x) :: rest else (k', x) :: updateA k f rest

/-- `self.data[author][playlist_id][video_id]`, as an `Option`. -/
def getRecord (store : Store) (t : Triple) : Option VideoRecord :=
  (alookup t.1 store).bind fun pls =>
    (alookup t.2.1 pls).bind fun vids => alookup t.2.2 vids

/-- Replace the `topic` field of a record. -/
def VideoRecord.withTopic (r : VideoRecord) (s : String) : VideoRecord :=
  ⟨r.captions, r.comments, some s⟩

/-- Replace the `captions` field of a record. -/
def VideoRecord.withCaptions (r : VideoRecord) (s : String) : VideoRecord :=
  ⟨some s, r.comments, r.topic⟩

/-- Replace the `comments` field of a record. -/
def VideoRecord.withComments (r : VideoRecord) (cs : List CommentEntry) : VideoRecord :=
  ⟨r.captions, some cs, r.topic⟩

/-- `self.data[author][playlist_id][video_id]["topic"] = s`. -/
def setTopic (store : Store) (t : Triple) (s : String) : Store :=
  updateA t.1 (updateA t.2.1 (updateA t.2.2 (fun r => r.withTopic s))) store

/-- Python `str.strip()`: drop leading and trailing whitespace
(structurally recursive over the character list, like CPython's scan
from both ends). -/
def pyStrip (s : String) : String :=
  ⟨((s.data.dropWhile Char.isWhitespace).reverse.dropWhile Char.isWhitespace).reverse⟩

/-- `video_data.get("captions", "").strip()`, the value both topic
modelers test and use. -/
def strippedCaptions (r : VideoRecord) : String := pyStrip (r.captions.getD "")

/-- The nested `for author / for playlist_id / for video_id` loop shared
by both `extract_captions` implementations, parameterised by what each
video contributes (a list of `(triple, text)` entries, appended in
iteration order). -/
def storeEntries (f : Triple → VideoRecord → List (Triple × String)) (store : Store) :
    List (Triple × String) :=
  store.flatMap fun ap =>
    ap.2.flatMap fun pv =>
      pv.2.flatMap fun vr => f (ap.1, pv.1, vr.1) vr.2

/-- What one video contributes in `TopicModeling.extract_captions`
(NMF script): one `(triple, stripped captions)` entry when the stripped
captions are non-empty, nothing otherwise. -/
def captionEntryOf (t : Triple) (r : VideoRecord) : List (Triple × String) :=
  let c := strippedCaptions r
  if c = "" then [] else [(t, c)]

/-- `TopicModeling.extract_captions` (NMF script), as the paired list of
its two parallel results `captions_list` and `video_id_map`. -/
def captionEntries (store : Store) : List (Triple × String) :=
  storeEntries captionEntryOf store

/-- What one video contributes in `TopicModelingBERT.extract_captions`:
the stripped captions are split by the (external) sentence tokenizer
`tok`, and one entry per sentence is appended. -/
def sentenceEntryOf (tok : String → List String) (t : Triple) (r : VideoRecord) :
    List (Triple × String) :=
  let c := strippedCaptions r
  if c = "" then [] else (tok c).map fun s => (t, s)

/-- `TopicModelingBERT.extract_captions`, as the paired list of its two
parallel results `captions_list` and `video_id_map`. -/
def sentenceEntries (tok : String → List String) (store : Store) : List (Triple × String) :=
  storeEntries (sentenceEntryOf tok) store

/-- Keys are unique at every nesting level — the invariant a Python dict
guarantees for `self.data`. -/
def WF (store : Store) : Prop :=
  (store.map (·.1)).Nodup ∧
    ∀ ap ∈ store, (ap.2.map (·.1)).Nodup ∧ ∀ pv ∈ ap.2, (pv.2.map (·.1)).Nodup

instance : DecidablePred WF := fun store => by
  unfold WF; infer_instance

/-! ### TfidfTopicModeler (`TopicModelingWithNMF.py`) -/

/-- `numpy.argsort` on a topic row: the indices `0..n-1` sorted by
ascending weight (`insertionSort` is stable; numpy leaves tie order
unspecified, and no claim depends on it). -/
def argsort (w : List ℚ) : List Nat :=
  (List.range w.length).insertionSort fun i j => w.getD i 0 ≤ w.getD j 0

/-- `topic.argsort()[-10:]`: the last (up to) ten entries of the
ascending argsort — the slice keeps the ascending order. -/
def topTen (w : List ℚ) : List Nat :=
  (argsort w).drop ((argsort w).length - 10)

/-- `[" ".join([terms[i] for i in topic.argsort()[-10:]]) for topic in H]`
from `TopicModeling.topic_modeling`. -/
def topicKeywordsNMF (terms : List String) (H : List (List ℚ)) : List String :=
  H.map fun t => String.intercalate " " ((topTen t).map fun i => terms.getD i "")

/-- Modelled from the spec: the keyword string the specification
describes — the topic's ten highest-weighted terms joined in
*descending* weight order ("the ascending argsort order being reversed
implicitly by the slicing").  Kept for comparison with
`topicKeywordsNMF`, which embeds the source. -/
def topicKeywordsSpecDescending (terms : List String) (H : List (List ℚ)) : List String :=
  H.map fun t =>
    String.intercalate " "
      ((((List.range t.length).insertionSort fun i j => t.getD j 0 ≤ t.getD i 0).take 10).map
        fun i => terms.getD i "")

/-- `numpy.argmax` walk: `bi`/`bv` are the index and value of the best
element seen so far, `i` the index of the head of the remaining list;
only a strictly greater value replaces the best, so the first maximum
wins, as in numpy. -/
def argmaxAux (i bi : Nat) (bv : ℚ) : List ℚ → Nat
  | [] => bi
  | x :: rest => if bv < x then argmaxAux (i + 1) i x rest else argmaxAux (i + 1) bi bv rest

/-- `W[i].argmax()`: index of the first maximal entry (`0` on the empty
row, which the script never queries). -/
def argmaxIdx (w : List ℚ) : Nat :=
  match w with
  | [] => 0
  | x :: rest => argmaxAux 1 0 x rest

/-- `TopicModeling.assign_topics`: for each `(i, triple)` of
`enumerate(video_id_map)`, write `topic_keywords[W[i].argmax()]` into the
video's `topic` field. -/
def assignTopicsNMF (store : Store) (videoIdMap : List Triple) (W : List (List ℚ))
    (topicKeywords : List String) : Store :=
  videoIdMap.enum.foldl
    (fun acc it => setTopic acc it.2 (topicKeywords.getD (argmaxIdx (W.getD it.1 [])) ""))
    store

/-- `TopicModeling.topic_modeling`: the external `TfidfVectorizer` is the
parameter `vec` (matrix and vocabulary), the external `NMF` is `nmf`,
called with the hard-coded `random_state=42`; the script's own work is
the keyword extraction.  Returns `(topic_keywords, W)`. -/
def topicModelingNMF (vec : List String → List (List ℚ) × List String)
    (nmf : Nat → List (List ℚ) → List (List ℚ) × List (List ℚ))
    (captionsList : List String) : List String × List (List ℚ) :=
  let vo := vec captionsList
  let wh := nmf 42 vo.1
  (topicKeywordsNMF vo.2 wh.2, wh.1)

/-- `TopicModeling.run`: extract captions, return (no write) when the
list is empty, otherwise model topics, assign them and save.
`some store'` means the JSON file was overwritten with `store'`. -/
def runNMF (vec : List String → List (List ℚ) × List String)
    (nmf : Nat → List (List ℚ) → List (List ℚ) × List (List ℚ)) (store : Store) :
    Option Store :=
  let es := captionEntries store
  if (es.map (·.2)).isEmpty then none
  else
    let km := topicModelingNMF vec nmf (es.map (·.2))
    some (assignTopicsNMF store (es.map (·.1)) km.2 km.1)

/-! ### EmbeddingTopicModeler (`TopicModellingWithBert.py`) -/

/-- `TopicModelingBERT.assign_topics`: for each `(i, triple)` of
`enumerate(video_id_map)`, write `" ".join(topic_keywords[labels[i]])`
into the video's `topic` field; `topicKeywords` is the
cluster-to-keyword-list mapping built upstream. -/
def assignTopicsBERT (store : Store) (videoIdMap : List Triple) (labels : List Nat)
    (topicKeywords : Nat → List String) : Store :=
  videoIdMap.enum.foldl
    (fun acc it => setTopic acc it.2 (String.intercalate " " (topicKeywords (labels.getD it.1 0))))
    store

/-- `TopicModelingBERT.run`: `tok` is NLTK's `sent_tokenize`, `labelsOf`
the composition of BERT embedding and seeded `KMeans` (one label per
sentence), `kwOf` the `get_top_keywords_for_topics` result as a function
of the captions list and labels.  `some store'` means the file was
overwritten with `store'`. -/
def runBERT (tok : String → List String) (labelsOf : List String → List Nat)
    (kwOf : List String → List Nat → Nat → List String) (store : Store) : Option Store :=
  let es := sentenceEntries tok store
  if (es.map (·.2)).isEmpty then none
  else
    let labels := labelsOf (es.map (·.2))
    some (assignTopicsBERT store (es.map (·.1)) labels (kwOf (es.map (·.2)) labels))

/-! ### CaptionFetcher (`YouTubeCaptionUpdater.py`) -/

/-- One timed transcript segment returned by `YouTubeTranscriptApi`; the
script only reads its `text` field. -/
structure TranscriptSeg where
  text : String
deriving Repr, DecidableEq

/-- `YouTubeCaptionUpdater.update_captions`: the external
`YouTubeTranscriptApi.get_transcript` is `fetch` (`Except` models a
raised exception).  Per video: on success, `captions` is set to the
newline-join of the segment texts; on failure the exception is caught,
logged, and the record is left as it was. -/
def updateCaptions (fetch : String → Except String (List TranscriptSeg)) (store : Store) :
    Store :=
  store.map fun ap =>
    (ap.1, ap.2.map fun pv =>
      (pv.1, pv.2.map fun vr =>
        (vr.1,
          match fetch vr.1 with
          | Except.ok transcript =>
              vr.2.withCaptions (String.intercalate "\n" (transcript.map (·.text)))
          | Except.error _ => vr.2)))

/-- `YouTubeCaptionUpdater.run`: update captions, then always save. -/
def runCaptionUpdater (fetch : String → Except String (List TranscriptSeg)) (store : Store) :
    Option Store :=
  some (updateCaptions fetch store)

/-! ### CommentFetcher (`YouTubeCommentUpdater.py`) -/

/-- The fields of one `commentThreads` item the script reads
(`item['snippet']['topLevelComment']['snippet']`). -/
structure ApiItem where
  publishedAt : String
  textDisplay : String
deriving Repr, DecidableEq

/-- One page of the paginated `commentThreads` response. -/
structure CommentPage where
  items : List ApiItem
  nextPageToken : Option String
deriving Repr, DecidableEq

/-- One element of `all_comments` inside
`get_comments_for_video` (the `VideoID` field is dropped again by
`extract_comments` before storing). -/
structure CommentRec where
  Timestamp : String
  Comment : String
  VideoID : String
deriving Repr, DecidableEq

/-- The `while True` pagination loop of `get_comments_for_video`.  The
external endpoint is `api maxResults pageToken`; the script always
passes `maxResults = 100`.  `fuel` bounds the number of requests:
`none` models a token chain longer than the fuel (the Python loop would
still be running), `some (Except.error e)` an exception raised by the
request, `some (Except.ok l)` normal termination with `all_comments = l`. -/
def getCommentsLoop (api : Nat → Option String → Except String CommentPage) (vid : String) :
    Nat → Option String → List CommentRec → Option (Except String (List CommentRec))
  | 0, _, _ => none
  | fuel + 1, tok, acc =>
    match api 100 tok with
    | Except.error e => some (Except.error e)
    | Except.ok page =>
      let acc2 := acc ++ page.items.map fun it => ⟨it.publishedAt, it.textDisplay, vid⟩
      match page.nextPageToken with
      | none => some (Except.ok acc2)
      | some t => getCommentsLoop api vid fuel (some t) acc2

/-- `YouTubeCommentExtractor.get_comments_for_video`: start the loop with
no page token and an empty `all_comments`. -/
def getCommentsForVideo (api : String → Nat → Option String → Except String CommentPage)
    (fuel : Nat) (vid : String) : Option (Except String (List CommentRec)) :=
  getCommentsLoop (api vid) vid fuel none []

/-- Strip a collected comment down to the `{Timestamp, Comment}` dict
stored in the JSON (`extract_comments`' comprehension). -/
def CommentRec.toEntry (c : CommentRec) : CommentEntry := ⟨c.Timestamp, c.Comment⟩

/-- `extract_comments` restricted to one playlist's videos: sequential,
and an exception (or exhausted fuel) aborts the whole traversal —
the script wraps nothing in `try`. -/
def extractCommentsVideos (api : String → Nat → Option String → Except String CommentPage)
    (fuel : Nat) : Videos → Option (Except String Videos)
  | [] => some (Except.ok [])
  | (v, r) :: rest =>
    match getCommentsForVideo api fuel v with
    | none => none
    | some (Except.error e) => some (Except.error e)
    | some (Except.ok cs) =>
      match extractCommentsVideos api fuel rest with
      | none => none
      | some (Except.error e) => some (Except.error e)
      | some (Except.ok rest2) =>
        some (Except.ok ((v, r.withComments (cs.map CommentRec.toEntry)) :: rest2))

/-- `extract_comments` restricted to one author's playlists. -/
def extractCommentsPlaylists (api : String → Nat → Option String → Except String CommentPage)
    (fuel : Nat) : Playlists → Option (Except String Playlists)
  | [] => some (Except.ok [])
  | (p, vids) :: rest =>
    match extractCommentsVideos api fuel vids with
    | none => none
    | some (Except.error e) => some (Except.error e)
    | some (Except.ok vids2) =>
      match extractCommentsPlaylists api fuel rest with
      | none => none
      | some (Except.error e) => some (Except.error e)
      | some (Except.ok rest2) => some (Except.ok ((p, vids2) :: rest2))

/-- `YouTubeCommentExtractor.extract_comments`: the full nested loop. -/
def extractComments (api : String → Nat → Option String → Except String CommentPage)
    (fuel : Nat) : Store → Option (Except String Store)
  | [] => some (Except.ok [])
  | (a, pls) :: rest =>
    match extractCommentsPlaylists api fuel pls with
    | none => none
    | some (Except.error e) => some (Except.error e)
    | some (Except.ok pls2) =>
      match extractComments api fuel rest with
      | none => none
      | some (Except.error e) => some (Except.error e)
      | some (Except.ok rest2) => some (Except.ok ((a, pls2) :: rest2))

/-- `YouTubeCommentExtractor.run`: extract, then save.  An exception in
`extract_comments` propagates out of `run`, so `save_data` is never
reached and the file is not written (`none`). -/
def runCommentExtractor (api : String → Nat → Option String → Except String CommentPage)
    (fuel : Nat) (store : Store) : Option Store :=
  match extractComments api fuel store with
  | some (Except.ok st) => some st
  | _ => none

/-- The video ids of the store in traversal order (each id once per
occurrence, as the nested loops visit them). -/
def videoIdsInOrder (store : Store) : List String :=
  store.flatMap fun ap => ap.2.flatMap fun pv => pv.2.map (·.1)

/-- The comment records one response page contributes for video `vid`,
in item order. -/
def pageRecs (vid : String) (page : CommentPage) : List CommentRec :=
  page.items.map fun it => ⟨it.publishedAt, it.textDisplay, vid⟩

/-- `PageChain q tok ps`: starting from page token `tok`, the endpoint
`q` answers with the pages `ps` in order, each page's `nextPageToken`
pointing at the next, the last one carrying no token. -/
def PageChain (q : Nat → Option String → Except String CommentPage) :
    Option String → List CommentPage → Prop
  | _, [] => False
  | tok, [p] => q 100 tok = Except.ok p ∧ p.nextPageToken = none
  | tok, p :: rest => q 100 tok = Except.ok p ∧
      ∃ t, p.nextPageToken = some t ∧ PageChain q (some t) rest

/-- A small concrete store used to instantiate hypotheses of the claim
theorems: one captioned video and one whitespace-only-captions video. -/
def demoStore : Store :=
  [("A", [("P", [("v1", ⟨some "hi there", none, none⟩),
                 ("v2", ⟨some "  ", none, none⟩)])])]

/-- Index (into `videoIdMap`) of the last occurrence of triple `t`. -/
def lastIdxOf (videoIdMap : List Triple) (t : Triple) : Nat :=
  videoIdMap.length - 1 - videoIdMap.reverse.findIdx fun x => decide (x = t)

/-- `getCommentsForVideo` succeeded for video id `v`. -/
def VideoOk (api : String → Nat → Option String → Except String CommentPage) (fuel : Nat)
    (v : String) : Prop :=
  ∃ cs, getCommentsForVideo api fuel v = some (Except.ok cs)

/-- The traversal meets video ids `pre` (all of whose paginations
succeed) and then a video `v` whose pagination raises `e`. -/
def FirstErr (api : String → Nat → Option String → Except String CommentPage) (fuel : Nat)
    (e : String) (vs : List String) : Prop :=
  ∃ pre v post, vs = pre ++ v :: post ∧ (∀ u ∈ pre, VideoOk api fuel u) ∧
    getCommentsForVideo api fuel v = some (Except.error e)

/-- The common shape of both `assign_topics` loops: fold over an
enumerated video-id map, writing `g i` into the topic of the `i`-th
triple. -/
def assignFold (g : Nat → String) (store : Store) (l : List (Nat × Triple)) : Store :=
  l.foldl (fun acc it => setTopic acc it.2 (g it.1)) store

/-! ## Association-list lemmas -/

theorem alookup_updateA_same {α : Type} (k : String) (f : α → α) (l : List (String × α)) :
    alookup k (updateA k f l) = (alookup k l).map f := by
  induction l with
  | nil => simp [alookup, updateA]
  | cons kv rest ih =>
    by_cases h : k = kv.1
    · simp [alookup, updateA, h]
    · simp [alookup, updateA, h, ih]

theorem alookup_updateA_ne {α : Type} {k k' : String} (h : k' ≠ k) (f : α → α)
    (l : List (String × α)) : alookup k' (updateA k f l) = alookup k' l := by
  induction l with
  | nil => simp [updateA]
  | cons kv rest ih =>
    by_cases hk : k = kv.1
    · subst hk
      simp [alookup, updateA, h, ih]
    · by_cases hk' : k' = kv.1
      · simp [alookup, updateA, hk, hk']
      · simp [alookup, updateA, hk, hk', ih]

theorem alookup_map_keyed {α β : Type} (k : String) (g : String × α → β)
    (l : List (String × α)) :
    alookup k (l.map fun kv => (kv.1, g kv)) = (alookup k l).map fun x => g (k, x) := by
  induction l with
  | nil => simp [alookup]
  | cons kv rest ih =>
    obtain ⟨k', x⟩ := kv
    by_cases h : k = k'
    · subst h
      simp [alookup]
    · simp [alookup, h, ih]

theorem alookup_mem {α : Type} {k : String} {x : α} {l : List (String × α)}
    (h : alookup k l = some x) : (k, x) ∈ l := by
  induction l with
  | nil => simp [alookup] at h
  | cons kv rest ih =>
    by_cases hk : k = kv.1
    · subst hk
      simp [alookup] at h
      simp [← h]
    · simp [alookup, hk] at h
      exact List.mem_cons_of_mem _ (ih h)

theorem alookup_eq_some_of_mem {α : Type} {k : String} {x : α} {l : List (String × α)}
    (hmem : (k, x) ∈ l) (hnd : (l.map (·.1)).Nodup) : alookup k l = some x := by
  induction l with
  | nil => simp at hmem
  | cons kv rest ih =>
    simp only [List.map_cons, List.nodup_cons] at hnd
    rcases List.mem_cons.mp hmem with h | h
    · rw [← h]
      simp [alookup]
    · have hk : k ≠ kv.1 := by
        intro hkk
        exact hnd.1 (by simpa [← hkk] using List.mem_map_of_mem (·.1) h)
      simp [alookup, hk, ih h hnd.2]

theorem alookup_decomp {α : Type} {k : String} {x : α} {l : List (String × α)}
    (hnd : (l.map (·.1)).Nodup) (h : alookup k l = some x) :
    ∃ l₁ l₂, l = l₁ ++ (k, x) :: l₂ ∧ (∀ y ∈ l₁, y.1 ≠ k) ∧ ∀ y ∈ l₂, y.1 ≠ k := by
  induction l with
  | nil => simp [alookup] at h
  | cons kv rest ih =>
    obtain ⟨k', x'⟩ := kv
    simp only [List.map_cons, List.nodup_cons] at hnd
    by_cases hk : k = k'
    · subst hk
      have h' : x' = x := by simpa [alookup] using h
      subst h'
      refine ⟨[], rest, rfl, by simp, ?_⟩
      intro y hy hyk
      exact hnd.1 (by simpa [hyk] using List.mem_map_of_mem (·.1) hy)
    · simp only [alookup, if_neg hk] at h
      obtain ⟨l₁, l₂, heq, h₁, h₂⟩ := ih hnd.2 h
      exact ⟨(k', x') :: l₁, l₂, by simp [heq], by
        intro y hy
        rcases List.mem_cons.mp hy with hy | hy
        · subst hy; exact fun hc => hk hc.symm
        · exact h₁ y hy, h₂⟩

/-! ## `getRecord` / `setTopic` interaction -/

theorem getRecord_setTopic_same (store : Store) (t : Triple) (s : String) :
    getRecord (setTopic store t s) t = (getRecord store t).map (·.withTopic s) := by
  obtain ⟨a, p, v⟩ := t
  simp only [getRecord, setTopic, alookup_updateA_same]
  cases alookup a store with
  | none => rfl
  | some pls =>
    simp only [Option.map_some', Option.some_bind, alookup_updateA_same]
    cases alookup p pls with
    | none => rfl
    | some vids =>
      exact alookup_updateA_same v _ vids

theorem getRecord_setTopic_ne {t t' : Triple} (h : t' ≠ t) (store : Store) (s : String) :
    getRecord (setTopic store t s) t' = getRecord store t' := by
  obtain ⟨a, p, v⟩ := t
  obtain ⟨a', p', v'⟩ := t'
  by_cases ha : a' = a
  · subst ha
    by_cases hp : p' = p
    · subst hp
      have hv : v' ≠ v := by
        intro hc
        exact h (by simp [hc])
      simp only [getRecord, setTopic, alookup_updateA_same]
      cases alookup a' store with
      | none => simp
      | some pls =>
        simp only [Option.map_some', Option.some_bind, alookup_updateA_same]
        cases alookup p' pls with
        | none => simp
        | some vids => simp [alookup_updateA_ne hv]
    · simp only [getRecord, setTopic, alookup_updateA_same]
      cases alookup a' store with
      | none => simp
      | some pls => simp [alookup_updateA_ne hp]
  · simp [getRecord, setTopic, alookup_updateA_ne ha]

theorem withTopic_withTopic (r : VideoRecord) (s s' : String) :
    (r.withTopic s).withTopic s' = r.withTopic s' := rfl

/-! ## The `assign_topics` fold: frame and last-write-wins -/

theorem assignFold_cons (g : Nat → String) (store : Store) (x : Nat × Triple)
    (l : List (Nat × Triple)) :
    assignFold g store (x :: l) = assignFold g (setTopic store x.2 (g x.1)) l := rfl

theorem assignTopicsNMF_eq_assignFold (store : Store) (videoIdMap : List Triple)
    (W : List (List ℚ)) (topicKeywords : List String) :
    assignTopicsNMF store videoIdMap W topicKeywords =
      assignFold (fun i => topicKeywords.getD (argmaxIdx (W.getD i [])) "") store
        videoIdMap.enum := rfl

theorem assignTopicsBERT_eq_assignFold (store : Store) (videoIdMap : List Triple)
    (labels : List Nat) (topicKeywords : Nat → List String) :
    assignTopicsBERT store videoIdMap labels topicKeywords =
      assignFold (fun i => String.intercalate " " (topicKeywords (labels.getD i 0))) store
        videoIdMap.enum := rfl

theorem getRecord_assignFold_of_forall_ne (g : Nat → String) {t : Triple}
    {l : List (Nat × Triple)} (h : ∀ x ∈ l, x.2 ≠ t) (store : Store) :
    getRecord (assignFold g store l) t = getRecord store t := by
  induction l generalizing store with
  | nil => rfl
  | cons x rest ih =>
    rw [assignFold_cons, ih fun y hy => h y (List.mem_cons_of_mem _ hy),
      getRecord_setTopic_ne (fun hc => h x (List.mem_cons_self x rest) hc.symm)]

theorem getRecord_assignFold_map_withTopic (g : Nat → String) (t : Triple)
    (l : List (Nat × Triple)) (store : Store) (s : String) :
    (getRecord (assignFold g store l) t).map (·.withTopic s) =
      (getRecord store t).map (·.withTopic s) := by
  induction l generalizing store with
  | nil => rfl
  | cons x rest ih =>
    rw [assignFold_cons, ih]
    by_cases hx : x.2 = t
    · rw [hx, getRecord_setTopic_same]
      cases getRecord store t <;> simp [withTopic_withTopic]
    · rw [getRecord_setTopic_ne fun hc => hx hc.symm]

theorem getRecord_assignFold_last (g : Nat → String) {t : Triple} {l₂ : List (Nat × Triple)}
    (h₂ : ∀ x ∈ l₂, x.2 ≠ t) (l₁ : List (Nat × Triple)) (i : Nat) (store : Store) :
    getRecord (assignFold g store (l₁ ++ (i, t) :: l₂)) t =
      (getRecord store t).map (·.withTopic (g i)) := by
  have hsplit : assignFold g store (l₁ ++ (i, t) :: l₂) =
      assignFold g (setTopic (assignFold g store l₁) t (g i)) l₂ := by
    simp [assignFold, List.foldl_append]
  rw [hsplit, getRecord_assignFold_of_forall_ne g h₂, getRecord_setTopic_same,
    getRecord_assignFold_map_withTopic]

/-! ## Last occurrence of a triple in the video-id map -/

theorem exists_first_decomp {α : Type} [DecidableEq α] {a : α} {l : List α} (h : a ∈ l) :
    ∃ l₁ l₂, l = l₁ ++ a :: l₂ ∧ a ∉ l₁ ∧
      l₁.length = l.findIdx fun x => decide (x = a) := by
  induction l with
  | nil => simp at h
  | cons b rest ih =>
    by_cases hb : b = a
    · subst hb
      exact ⟨[], rest, rfl, by simp, by simp [List.findIdx_cons]⟩
    · have ha : a ∈ rest := by
        rcases List.mem_cons.mp h with hc | hc
        · exact absurd hc.symm hb
        · exact hc
      obtain ⟨l₁, l₂, heq, hnot, hlen⟩ := ih ha
      refine ⟨b :: l₁, l₂, by simp [heq], ?_, ?_⟩
      · intro hc
        rcases List.mem_cons.mp hc with hc | hc
        · exact hb hc.symm
        · exact hnot hc
      · have hpb : (fun x => decide (x = a)) b = false := by simp [hb]
        simp [List.findIdx_cons, hpb, hlen]

theorem exists_last_decomp {t : Triple} {videoIdMap : List Triple} (h : t ∈ videoIdMap) :
    ∃ m₁ m₂, videoIdMap = m₁ ++ t :: m₂ ∧ t ∉ m₂ ∧ m₁.length = lastIdxOf videoIdMap t := by
  have hrev : t ∈ videoIdMap.reverse := List.mem_reverse.mpr h
  obtain ⟨r₁, r₂, heq, hnot, hlen⟩ := exists_first_decomp hrev
  refine ⟨r₂.reverse, r₁.reverse, ?_, by simpa using hnot, ?_⟩
  · have := congrArg List.reverse heq
    simpa [List.reverse_append] using this
  · have hL : videoIdMap.length = r₁.length + 1 + r₂.length := by
      have := congrArg List.length heq
      simp [List.length_append, List.length_reverse] at this
      omega
    simp only [lastIdxOf, List.length_reverse, ← hlen, hL]
    omega

theorem snd_ne_of_mem_enumFrom {t : Triple} {m : List Triple} (hnot : t ∉ m) (n : Nat) :
    ∀ x ∈ m.enumFrom n, x.2 ≠ t := by
  intro x hx hc
  apply hnot
  have : x.2 ∈ (m.enumFrom n).map Prod.snd := List.mem_map_of_mem Prod.snd hx
  rwa [List.enumFrom_map_snd, hc] at this

/-- Last-write-wins: the final topic of `t` comes from the last
occurrence of `t` in the enumerated video-id map. -/
theorem getRecord_assignFold_enum (g : Nat → String) {t : Triple} {videoIdMap : List Triple}
    (h : t ∈ videoIdMap) (store : Store) :
    getRecord (assignFold g store videoIdMap.enum) t =
      (getRecord store t).map (·.withTopic (g (lastIdxOf videoIdMap t))) := by
  obtain ⟨m₁, m₂, heq, hnot, hlen⟩ := exists_last_decomp h
  have henum : videoIdMap.enum = m₁.enum ++ (m₁.length, t) :: m₂.enumFrom (m₁.length + 1) := by
    rw [heq]
    simp [List.enum, List.enumFrom_append]
  rw [henum, getRecord_assignFold_last g (snd_ne_of_mem_enumFrom hnot _) _ _ store, hlen]

/-! ## Structure of the extracted entry lists -/

theorem mem_storeEntries {f : Triple → VideoRecord → List (Triple × String)} {store : Store}
    {e : Triple × String} (h : e ∈ storeEntries f store) :
    ∃ ap ∈ store, ∃ pv ∈ ap.2, ∃ vr ∈ pv.2, e ∈ f (ap.1, pv.1, vr.1) vr.2 := by
  simp only [storeEntries, List.mem_flatMap] at h
  obtain ⟨ap, hap, pv, hpv, vr, hvr, he⟩ := h
  exact ⟨ap, hap, pv, hpv, vr, hvr, he⟩

theorem storeEntries_eq_nil {f : Triple → VideoRecord → List (Triple × String)} {store : Store}
    (h : ∀ ap ∈ store, ∀ pv ∈ ap.2, ∀ vr ∈ pv.2, f (ap.1, pv.1, vr.1) vr.2 = []) :
    storeEntries f store = [] := by
  rw [List.eq_nil_iff_forall_not_mem]
  intro e he
  obtain ⟨ap, hap, pv, hpv, vr, hvr, hmem⟩ := mem_storeEntries he
  rw [h ap hap pv hpv vr hvr] at hmem
  simp at hmem

theorem getRecord_isSome_of_mem_storeEntries
    {f : Triple → VideoRecord → List (Triple × String)}
    (hf : ∀ t r e, e ∈ f t r → (e : Triple × String).1 = t) {store : Store} (hwf : WF store)
    {e : Triple × String} (h : e ∈ storeEntries f store) : (getRecord store e.1).isSome := by
  obtain ⟨ap, hap, pv, hpv, vr, hvr, hmem⟩ := mem_storeEntries h
  have het := hf _ _ _ hmem
  have h1 : alookup ap.1 store = some ap.2 :=
    alookup_eq_some_of_mem (by simpa using hap) hwf.1
  have h2 : alookup pv.1 ap.2 = some pv.2 :=
    alookup_eq_some_of_mem (by simpa using hpv) (hwf.2 ap hap).1
  have h3 : alookup vr.1 pv.2 = some vr.2 :=
    alookup_eq_some_of_mem (by simpa using hvr) ((hwf.2 ap hap).2 pv hpv)
  rw [het]
  simp [getRecord, h1, h2, h3]

theorem storeEntries_decomp {f : Triple → VideoRecord → List (Triple × String)}
    (hf : ∀ t r e, e ∈ f t r → (e : Triple × String).1 = t) {store : Store} (hwf : WF store)
    {a p v : String} {r : VideoRecord} (hrec : getRecord store (a, p, v) = some r) :
    ∃ E₁ E₂, storeEntries f store = E₁ ++ f (a, p, v) r ++ E₂ ∧
      (∀ e ∈ E₁, (e : Triple × String).1 ≠ (a, p, v)) ∧
      ∀ e ∈ E₂, (e : Triple × String).1 ≠ (a, p, v) := by
  simp only [getRecord, Option.bind_eq_some] at hrec
  obtain ⟨pls, h1, vids, h2, h3⟩ := hrec
  obtain ⟨S₁, S₂, hseq, hS₁, hS₂⟩ := alookup_decomp hwf.1 h1
  have hapmem : (a, pls) ∈ store := alookup_mem h1
  obtain ⟨P₁, P₂, hpeq, hP₁, hP₂⟩ := alookup_decomp (hwf.2 _ hapmem).1 h2
  have hpeq : pls = P₁ ++ (p, vids) :: P₂ := hpeq
  have hpvmem : (p, vids) ∈ pls := alookup_mem h2
  obtain ⟨V₁, V₂, hveq, hV₁, hV₂⟩ := alookup_decomp ((hwf.2 _ hapmem).2 _ hpvmem) h3
  have hveq : vids = V₁ ++ (v, r) :: V₂ := hveq
  have hne₁ : ∀ S : Store, (∀ y ∈ S, y.1 ≠ a) →
      ∀ e ∈ storeEntries f S, (e : Triple × String).1 ≠ (a, p, v) := by
    intro S hS e he hc
    obtain ⟨ap, hap, pv, hpv, vr, hvr, hmem⟩ := mem_storeEntries he
    have := hf _ _ _ hmem
    rw [hc] at this
    exact hS ap hap (congrArg Prod.fst this).symm
  refine ⟨storeEntries f S₁ ++
      (P₁.flatMap fun pv => pv.2.flatMap fun vr => f (a, pv.1, vr.1) vr.2) ++
      (V₁.flatMap fun vr => f (a, p, vr.1) vr.2),
    (V₂.flatMap fun vr => f (a, p, vr.1) vr.2) ++
      (P₂.flatMap fun pv => pv.2.flatMap fun vr => f (a, pv.1, vr.1) vr.2) ++
      storeEntries f S₂, ?_, ?_, ?_⟩
  · rw [hseq]
    simp only [storeEntries, List.flatMap_append, List.flatMap_cons]
    rw [hpeq]
    simp only [List.flatMap_append, List.flatMap_cons]
    rw [hveq]
    simp only [List.flatMap_append, List.flatMap_cons]
    simp [List.append_assoc]
  · intro e he
    rcases List.mem_append.mp he with he | he
    · rcases List.mem_append.mp he with he | he
      · exact hne₁ S₁ hS₁ e he
      · simp only [List.mem_flatMap] at he
        obtain ⟨pv, hpv, vr, hvr, hmem⟩ := he
        have het := hf _ _ _ hmem
        intro hc
        rw [hc] at het
        exact hP₁ pv hpv (congrArg (fun t : Triple => t.2.1) het).symm
    · simp only [List.mem_flatMap] at he
      obtain ⟨vr, hvr, hmem⟩ := he
      have het := hf _ _ _ hmem
      intro hc
      rw [hc] at het
      exact hV₁ vr hvr (congrArg (fun t : Triple => t.2.2) het).symm
  · intro e he
    rcases List.mem_append.mp he with he | he
    · rcases List.mem_append.mp he with he | he
      · simp only [List.mem_flatMap] at he
        obtain ⟨vr, hvr, hmem⟩ := he
        have het := hf _ _ _ hmem
        intro hc
        rw [hc] at het
        exact hV₂ vr hvr (congrArg (fun t : Triple => t.2.2) het).symm
      · simp only [List.mem_flatMap] at he
        obtain ⟨pv, hpv, vr, hvr, hmem⟩ := he
        have het := hf _ _ _ hmem
        intro hc
        rw [hc] at het
        exact hP₂ pv hpv (congrArg (fun t : Triple => t.2.1) het).symm
    · exact hne₁ S₂ hS₂ e he

/-! ## Pagination -/

theorem getCommentsLoop_chain {api : Nat → Option String → Except String CommentPage}
    {vid : String} {ps : List CommentPage} :
    ∀ {tok : Option String}, PageChain api tok ps → ∀ {fuel : Nat}, ps.length ≤ fuel →
      ∀ acc, getCommentsLoop api vid fuel tok acc =
        some (Except.ok (acc ++ ps.flatMap (pageRecs vid))) := by
  induction ps with
  | nil =>
    intro tok h
    exact absurd h (by simp [PageChain])
  | cons p rest ih =>
    intro tok h fuel hf acc
    cases fuel with
    | zero => simp at hf
    | succ f =>
      cases rest with
      | nil =>
        obtain ⟨hq, hnone⟩ := h
        simp only [getCommentsLoop, hq, hnone]
        simp [pageRecs]
      | cons q rest' =>
        obtain ⟨hq, t, hsome, hchain⟩ := h
        have hf' : (q :: rest').length ≤ f := by
          simp only [List.length_cons] at hf ⊢
          omega
        simp only [getCommentsLoop, hq, hsome]
        rw [ih hchain hf']
        simp [pageRecs, List.append_assoc]

/-! ## The comment traversal: success, lookups and short-circuiting -/

theorem extractCommentsVideos_ok_lookup
    {api : String → Nat → Option String → Except String CommentPage} {fuel : Nat}
    {vids vids' : Videos}
    (h : extractCommentsVideos api fuel vids = some (Except.ok vids')) :
    ∀ v r, alookup v vids = some r →
      ∃ cs, getCommentsForVideo api fuel v = some (Except.ok cs) ∧
        alookup v vids' = some (r.withComments (cs.map CommentRec.toEntry)) := by
  induction vids generalizing vids' with
  | nil =>
    intro v r hv
    simp [alookup] at hv
  | cons vr rest ih =>
    obtain ⟨v0, r0⟩ := vr
    intro v r hv
    rcases hg : getCommentsForVideo api fuel v0 with _ | eg
    · simp [extractCommentsVideos, hg] at h
    · rcases eg with e | cs0
      · simp [extractCommentsVideos, hg] at h
      · rcases hrest : extractCommentsVideos api fuel rest with _ | er
        · simp [extractCommentsVideos, hg, hrest] at h
        · rcases er with e | rest2
          · simp [extractCommentsVideos, hg, hrest] at h
          · simp only [extractCommentsVideos, hg, hrest, Option.some.injEq,
              Except.ok.injEq] at h
            by_cases hveq : v = v0
            · subst hveq
              have hr : r0 = r := by simpa [alookup] using hv
              subst hr
              exact ⟨cs0, hg, by rw [← h]; simp [alookup]⟩
            · have hv' : alookup v rest = some r := by simpa [alookup, hveq] using hv
              obtain ⟨cs, hcs, hl⟩ := ih hrest v r hv'
              exact ⟨cs, hcs, by rw [← h]; simpa [alookup, hveq] using hl⟩

theorem extractCommentsVideos_ok_all
    {api : String → Nat → Option String → Except String CommentPage} {fuel : Nat}
    {vids vids' : Videos}
    (h : extractCommentsVideos api fuel vids = some (Except.ok vids')) :
    ∀ v ∈ vids.map (·.1), VideoOk api fuel v := by
  induction vids generalizing vids' with
  | nil => simp
  | cons vr rest ih =>
    obtain ⟨v0, r0⟩ := vr
    rcases hg : getCommentsForVideo api fuel v0 with _ | eg
    · simp [extractCommentsVideos, hg] at h
    · rcases eg with e | cs0
      · simp [extractCommentsVideos, hg] at h
      · rcases hrest : extractCommentsVideos api fuel rest with _ | er
        · simp [extractCommentsVideos, hg, hrest] at h
        · rcases er with e | rest2
          · simp [extractCommentsVideos, hg, hrest] at h
          · intro v hv
            simp only [List.map_cons, List.mem_cons] at hv
            rcases hv with hv | hv
            · exact ⟨cs0, by rw [hv]; exact hg⟩
            · exact ih hrest v hv

theorem extractCommentsVideos_of_all_ok
    {api : String → Nat → Option String → Except String CommentPage} {fuel : Nat}
    {vids : Videos} (h : ∀ v ∈ vids.map (·.1), VideoOk api fuel v) :
    ∃ vids', extractCommentsVideos api fuel vids = some (Except.ok vids') := by
  induction vids with
  | nil => exact ⟨[], rfl⟩
  | cons vr rest ih =>
    obtain ⟨v0, r0⟩ := vr
    obtain ⟨cs0, hg⟩ := h v0 (by simp)
    obtain ⟨rest2, hrest⟩ := ih fun v hv => h v (by simpa using Or.inr (by simpa using hv))
    exact ⟨(v0, r0.withComments (cs0.map CommentRec.toEntry)) :: rest2, by
      simp only [extractCommentsVideos, hg, hrest]⟩

theorem extractCommentsVideos_firstErr
    {api : String → Nat → Option String → Except String CommentPage} {fuel : Nat}
    {e : String} {vids : Videos} (h : FirstErr api fuel e (vids.map (·.1))) :
    extractCommentsVideos api fuel vids = some (Except.error e) := by
  induction vids with
  | nil =>
    obtain ⟨pre, v, post, habs, -, -⟩ := h
    exact absurd habs.symm (by simp)
  | cons vr rest ih =>
    obtain ⟨v0, r0⟩ := vr
    obtain ⟨pre, v, post, heq, hpre, herr⟩ := h
    cases pre with
    | nil =>
      have hv0 : v0 = v := by simpa using congrArg (fun l => l.headI) heq
      subst hv0
      simp only [extractCommentsVideos, herr]
    | cons u pre' =>
      have hu : u = v0 := by simpa using (congrArg (fun l => l.headI) heq).symm
      subst hu
      obtain ⟨cs0, hg⟩ := hpre u (by simp)
      have htl : rest.map (·.1) = pre' ++ v :: post := by simpa using congrArg List.tail heq
      have hrest : extractCommentsVideos api fuel rest = some (Except.error e) :=
        ih ⟨pre', v, post, htl, fun w hw => hpre w (by simp [hw]), herr⟩
      simp only [extractCommentsVideos, hg, hrest]

theorem extractCommentsPlaylists_ok_lookup
    {api : String → Nat → Option String → Except String CommentPage} {fuel : Nat}
    {pls pls' : Playlists}
    (h : extractCommentsPlaylists api fuel pls = some (Except.ok pls')) :
    ∀ p vids, alookup p pls = some vids →
      ∃ vids', extractCommentsVideos api fuel vids = some (Except.ok vids') ∧
        alookup p pls' = some vids' := by
  induction pls generalizing pls' with
  | nil =>
    intro p vids hp
    simp [alookup] at hp
  | cons pv rest ih =>
    obtain ⟨p0, vids0⟩ := pv
    intro p vids hp
    rcases hg : extractCommentsVideos api fuel vids0 with _ | eg
    · simp [extractCommentsPlaylists, hg] at h
    · rcases eg with e | vids0'
      · simp [extractCommentsPlaylists, hg] at h
      · rcases hrest : extractCommentsPlaylists api fuel rest with _ | er
        · simp [extractCommentsPlaylists, hg, hrest] at h
        · rcases er with e | rest2
          · simp [extractCommentsPlaylists, hg, hrest] at h
          · simp only [extractCommentsPlaylists, hg, hrest, Option.some.injEq,
              Except.ok.injEq] at h
            by_cases hpeq : p = p0
            · subst hpeq
              have hvids : vids0 = vids := by simpa [alookup] using hp
              subst hvids
              exact ⟨vids0', hg, by rw [← h]; simp [alookup]⟩
            · have hp' : alookup p rest = some vids := by simpa [alookup, hpeq] using hp
              obtain ⟨vids', hv, hl⟩ := ih hrest p vids hp'
              exact ⟨vids', hv, by rw [← h]; simpa [alookup, hpeq] using hl⟩

theorem extractComments_ok_lookup
    {api : String → Nat → Option String → Except String CommentPage} {fuel : Nat}
    {store st' : Store} (h : extractComments api fuel store = some (Except.ok st')) :
    ∀ a pls, alookup a store = some pls →
      ∃ pls', extractCommentsPlaylists api fuel pls = some (Except.ok pls') ∧
        alookup a st' = some pls' := by
  induction store generalizing st' with
  | nil =>
    intro a pls ha
    simp [alookup] at ha
  | cons ap rest ih =>
    obtain ⟨a0, pls0⟩ := ap
    intro a pls ha
    rcases hg : extractCommentsPlaylists api fuel pls0 with _ | eg
    · simp [extractComments, hg] at h
    · rcases eg with e | pls0'
      · simp [extractComments, hg] at h
      · rcases hrest : extractComments api fuel rest with _ | er
        · simp [extractComments, hg, hrest] at h
        · rcases er with e | rest2
          · simp [extractComments, hg, hrest] at h
          · simp only [extractComments, hg, hrest, Option.some.injEq,
              Except.ok.injEq] at h
            by_cases haeq : a = a0
            · subst haeq
              have hpls : pls0 = pls := by simpa [alookup] using ha
              subst hpls
              exact ⟨pls0', hg, by rw [← h]; simp [alookup]⟩
            · have ha' : alookup a rest = some pls := by simpa [alookup, haeq] using ha
              obtain ⟨pls', hp, hl⟩ := ih hrest a pls ha'
              exact ⟨pls', hp, by rw [← h]; simpa [alookup, haeq] using hl⟩

/-- If the whole extraction succeeds, every record's `comments` field is
replaced by the list collected for its video id. -/
theorem extractComments_ok_getRecord
    {api : String → Nat → Option String → Except String CommentPage} {fuel : Nat}
    {store st' : Store} (h : extractComments api fuel store = some (Except.ok st'))
    {t : Triple} {r : VideoRecord} (hrec : getRecord store t = some r) :
    ∃ cs, getCommentsForVideo api fuel t.2.2 = some (Except.ok cs) ∧
      getRecord st' t = some (r.withComments (cs.map CommentRec.toEntry)) := by
  simp only [getRecord, Option.bind_eq_some] at hrec
  obtain ⟨pls, h1, vids, h2, h3⟩ := hrec
  obtain ⟨pls', hp, hl1⟩ := extractComments_ok_lookup h t.1 pls h1
  obtain ⟨vids', hv, hl2⟩ := extractCommentsPlaylists_ok_lookup hp t.2.1 vids h2
  obtain ⟨cs, hcs, hl3⟩ := extractCommentsVideos_ok_lookup hv t.2.2 r h3
  exact ⟨cs, hcs, by simp [getRecord, hl1, hl2, hl3]⟩

theorem extractCommentsPlaylists_ok_all
    {api : String → Nat → Option String → Except String CommentPage} {fuel : Nat}
    {pls pls' : Playlists}
    (h : extractCommentsPlaylists api fuel pls = some (Except.ok pls')) :
    ∀ v ∈ pls.flatMap fun pv => pv.2.map (·.1), VideoOk api fuel v := by
  induction pls generalizing pls' with
  | nil => simp
  | cons pv rest ih =>
    obtain ⟨p0, vids0⟩ := pv
    rcases hg : extractCommentsVideos api fuel vids0 with _ | eg
    · simp [extractCommentsPlaylists, hg] at h
    · rcases eg with e | vids0'
      · simp [extractCommentsPlaylists, hg] at h
      · rcases hrest : extractCommentsPlaylists api fuel rest with _ | er
        · simp [extractCommentsPlaylists, hg, hrest] at h
        · rcases er with e | rest2
          · simp [extractCommentsPlaylists, hg, hrest] at h
          · intro v hv
            simp only [List.flatMap_cons, List.mem_append] at hv
            rcases hv with hv | hv
            · exact extractCommentsVideos_ok_all hg v hv
            · exact ih hrest v hv

theorem extractComments_ok_all
    {api : String → Nat → Option String → Except String CommentPage} {fuel : Nat}
    {store st' : Store} (h : extractComments api fuel store = some (Except.ok st')) :
    ∀ v ∈ videoIdsInOrder store, VideoOk api fuel v := by
  induction store generalizing st' with
  | nil => simp [videoIdsInOrder]
  | cons ap rest ih =>
    obtain ⟨a0, pls0⟩ := ap
    rcases hg : extractCommentsPlaylists api fuel pls0 with _ | eg
    · simp [extractComments, hg] at h
    · rcases eg with e | pls0'
      · simp [extractComments, hg] at h
      · rcases hrest : extractComments api fuel rest with _ | er
        · simp [extractComments, hg, hrest] at h
        · rcases er with e | rest2
          · simp [extractComments, hg, hrest] at h
          · intro v hv
            simp only [videoIdsInOrder, List.flatMap_cons, List.mem_append] at hv
            rcases hv with hv | hv
            · exact extractCommentsPlaylists_ok_all hg v hv
            · exact ih hrest v (by simpa [videoIdsInOrder] using hv)

theorem extractCommentsPlaylists_of_all_ok
    {api : String → Nat → Option String → Except String CommentPage} {fuel : Nat}
    {pls : Playlists} (h : ∀ v ∈ pls.flatMap fun pv => pv.2.map (·.1), VideoOk api fuel v) :
    ∃ pls', extractCommentsPlaylists api fuel pls = some (Except.ok pls') := by
  induction pls with
  | nil => exact ⟨[], rfl⟩
  | cons pv rest ih =>
    obtain ⟨p0, vids0⟩ := pv
    obtain ⟨vids0', hg⟩ := extractCommentsVideos_of_all_ok fun v hv =>
      h v (by simp only [List.flatMap_cons, List.mem_append]; exact Or.inl hv)
    obtain ⟨rest2, hrest⟩ := ih fun v hv =>
      h v (by simp only [List.flatMap_cons, List.mem_append]; exact Or.inr hv)
    exact ⟨(p0, vids0') :: rest2, by simp only [extractCommentsPlaylists, hg, hrest]⟩

/-! ## First failure short-circuits the comment traversal -/

theorem firstErr_append {api : String → Nat → Option String → Except String CommentPage}
    {fuel : Nat} {e : String} {xs ys : List String} (h : FirstErr api fuel e (xs ++ ys)) :
    FirstErr api fuel e xs ∨ ((∀ u ∈ xs, VideoOk api fuel u) ∧ FirstErr api fuel e ys) := by
  obtain ⟨pre, v, post, heq, hpre, herr⟩ := h
  rcases List.append_eq_append_iff.mp heq with ⟨a', hc, hb⟩ | ⟨c', ha, hd⟩
  · refine Or.inr ⟨fun u hu => hpre u (by rw [hc]; exact List.mem_append_left _ hu), ?_⟩
    exact ⟨a', v, post, hb, fun u hu => hpre u (by rw [hc]; exact List.mem_append_right _ hu),
      herr⟩
  · cases c' with
    | nil =>
      refine Or.inr ⟨fun u hu => hpre u (by rw [ha] at hu; simpa using hu), ?_⟩
      exact ⟨[], v, post, by simpa using hd.symm, by simp, herr⟩
    | cons w c'' =>
      simp only [List.cons_append, List.cons.injEq] at hd
      obtain ⟨hw, hpost⟩ := hd
      subst hw
      exact Or.inl ⟨pre, v, c'', by rw [ha], hpre, herr⟩

theorem extractCommentsPlaylists_firstErr
    {api : String → Nat → Option String → Except String CommentPage} {fuel : Nat}
    {e : String} {pls : Playlists}
    (h : FirstErr api fuel e (pls.flatMap fun pv => pv.2.map (·.1))) :
    extractCommentsPlaylists api fuel pls = some (Except.error e) := by
  induction pls with
  | nil =>
    obtain ⟨pre, v, post, habs, -, -⟩ := h
    exact absurd habs.symm (by simp)
  | cons pv rest ih =>
    obtain ⟨p0, vids0⟩ := pv
    simp only [List.flatMap_cons] at h
    rcases firstErr_append h with h' | ⟨hok, h'⟩
    · have hv : extractCommentsVideos api fuel vids0 = some (Except.error e) :=
        extractCommentsVideos_firstErr h'
      simp only [extractCommentsPlaylists, hv]
    · obtain ⟨vids0', hv⟩ := extractCommentsVideos_of_all_ok hok
      have hrest := ih h'
      simp only [extractCommentsPlaylists, hv, hrest]

theorem extractComments_firstErr
    {api : String → Nat → Option String → Except String CommentPage} {fuel : Nat}
    {e : String} {store : Store} (h : FirstErr api fuel e (videoIdsInOrder store)) :
    extractComments api fuel store = some (Except.error e) := by
  induction store with
  | nil =>
    obtain ⟨pre, v, post, habs, -, -⟩ := h
    exact absurd habs.symm (by simp [videoIdsInOrder])
  | cons ap rest ih =>
    obtain ⟨a0, pls0⟩ := ap
    simp only [videoIdsInOrder, List.flatMap_cons] at h
    rcases firstErr_append h with h' | ⟨hok, h'⟩
    · have hp : extractCommentsPlaylists api fuel pls0 = some (Except.error e) :=
        extractCommentsPlaylists_firstErr h'
      simp only [extractComments, hp]
    · obtain ⟨pls0', hp⟩ := extractCommentsPlaylists_of_all_ok hok
      have hrest : extractComments api fuel rest = some (Except.error e) :=
        ih (by simpa [videoIdsInOrder] using h')
      simp only [extractComments, hp, hrest]

/-! ## `argsort`, `topTen` and `argmax` -/

theorem argsort_perm (w : List ℚ) : (argsort w).Perm (List.range w.length) :=
  List.perm_insertionSort _ _

theorem argsort_length (w : List ℚ) : (argsort w).length = w.length := by
  simpa using (argsort_perm w).length_eq

theorem argsort_sorted (w : List ℚ) :
    List.Sorted (fun i j => w.getD i 0 ≤ w.getD j 0) (argsort w) := by
  haveI : IsTotal Nat fun i j => w.getD i 0 ≤ w.getD j 0 := ⟨fun a b => le_total _ _⟩
  haveI : IsTrans Nat fun i j => w.getD i 0 ≤ w.getD j 0 := ⟨fun a b c => le_trans⟩
  exact List.sorted_insertionSort _ _

theorem argsort_nodup (w : List ℚ) : (argsort w).Nodup :=
  ((argsort_perm w).nodup_iff).mpr (List.nodup_range _)

theorem topTen_sublist (w : List ℚ) : (topTen w).Sublist (argsort w) :=
  List.drop_sublist _ _

theorem topTen_length (w : List ℚ) : (topTen w).length = min 10 w.length := by
  simp only [topTen, List.length_drop, argsort_length]
  omega

theorem topTen_mem_lt (w : List ℚ) : ∀ i ∈ topTen w, i < w.length := by
  intro i hi
  have : i ∈ argsort w := (topTen_sublist w).mem hi
  simpa using (argsort_perm w).mem_iff.mp this

theorem topTen_nodup (w : List ℚ) : (topTen w).Nodup :=
  (argsort_nodup w).sublist (topTen_sublist w)

theorem topTen_sorted (w : List ℚ) :
    List.Sorted (fun i j => w.getD i 0 ≤ w.getD j 0) (topTen w) :=
  (argsort_sorted w).sublist (topTen_sublist w)

/-- The indices kept by the `[-10:]` slice carry weights at least as
large as every weight at a dropped index. -/
theorem topTen_maximal (w : List ℚ) :
    ∀ i ∈ topTen w, ∀ j < w.length, j ∉ topTen w → w.getD j 0 ≤ w.getD i 0 := by
  intro i hi j hj hnot
  have hjarg : j ∈ argsort w := (argsort_perm w).mem_iff.mpr (List.mem_range.mpr hj)
  set k := (argsort w).length - 10 with hk
  have hsplit := List.take_append_drop k (argsort w)
  have hjtake : j ∈ (argsort w).take k := by
    rcases List.mem_append.mp (by rw [hsplit]; exact hjarg) with h | h
    · exact h
    · exact absurd h hnot
  have hpair := (List.pairwise_append.mp (by rw [hsplit]; exact argsort_sorted w)).2.2
  exact hpair j hjtake i hi

theorem argmaxAux_spec (l : List ℚ) : ∀ (w : List ℚ) (i bi : Nat) (bv : ℚ),
    w.length = i + l.length →
    (∀ k, i ≤ k → w.getD k 0 = l.getD (k - i) 0) →
    bi < i → w.getD bi 0 = bv →
    (∀ j < i, w.getD j 0 ≤ bv) →
    argmaxAux i bi bv l < w.length ∧
      ∀ j < w.length, w.getD j 0 ≤ w.getD (argmaxAux i bi bv l) 0 := by
  induction l with
  | nil =>
    intro w i bi bv hlen _ hbi hval hmax
    have hlen' : w.length = i := by simpa using hlen
    simp only [argmaxAux]
    exact ⟨by omega, fun j hj => by rw [hval]; exact hmax j (by omega)⟩
  | cons x rest ih =>
    intro w i bi bv hlen hagree hbi hval hmax
    have hx : w.getD i 0 = x := by simpa using hagree i le_rfl
    have hagree' : ∀ k, i + 1 ≤ k → w.getD k 0 = rest.getD (k - (i + 1)) 0 := by
      intro k hk
      have h1 := hagree k (by omega)
      have h2 : k - i = (k - (i + 1)) + 1 := by omega
      rw [h1, h2, List.getD_cons_succ]
    by_cases hlt : bv < x
    · simp only [argmaxAux, if_pos hlt]
      refine ih w (i + 1) i x (by simp only [List.length_cons] at hlen; omega) hagree'
        (by omega) hx ?_
      intro j hj
      by_cases hji : j < i
      · exact le_trans (hmax j hji) (le_of_lt hlt)
      · have : j = i := by omega
        rw [this, hx]
    · simp only [argmaxAux, if_neg hlt]
      refine ih w (i + 1) bi bv (by simp only [List.length_cons] at hlen; omega) hagree'
        (by omega) hval ?_
      intro j hj
      by_cases hji : j < i
      · exact hmax j hji
      · have : j = i := by omega
        rw [this, hx]
        exact le_of_not_lt hlt

/-- `argmax` of a non-empty row is in range and carries a maximal
weight. -/
theorem argmaxIdx_spec {w : List ℚ} (hw : w ≠ []) :
    argmaxIdx w < w.length ∧ ∀ j < w.length, w.getD j 0 ≤ w.getD (argmaxIdx w) 0 := by
  match w, hw with
  | x :: rest, _ =>
    have := argmaxAux_spec rest (x :: rest) 1 0 x (by simp [Nat.add_comm])
      (fun k hk => by
        have h2 : k - 0 = (k - 1) + 1 := by omega
        simp only [Nat.sub_zero] at h2
        rw [show (x :: rest).getD k 0 = (x :: rest).getD ((k - 1) + 1) 0 from by rw [← h2],
          List.getD_cons_succ])
      (by omega) (by simp)
      (fun j hj => by
        have : j = 0 := by omega
        simp [this])
    simpa [argmaxIdx] using this

theorem captionEntryOf_key (t : Triple) (r : VideoRecord) :
    ∀ e ∈ captionEntryOf t r, (e : Triple × String).1 = t := by
  intro e he
  by_cases hc : strippedCaptions r = ""
  · simp [captionEntryOf, hc] at he
  · simp only [captionEntryOf, if_neg hc, List.mem_singleton] at he
    rw [he]

theorem sentenceEntryOf_key (tok : String → List String) (t : Triple) (r : VideoRecord) :
    ∀ e ∈ sentenceEntryOf tok t r, (e : Triple × String).1 = t := by
  intro e he
  by_cases hc : strippedCaptions r = ""
  · simp [sentenceEntryOf, hc] at he
  · simp only [sentenceEntryOf, if_neg hc, List.mem_map] at he
    obtain ⟨s, -, he⟩ := he
    rw [← he]

/-! ## Claim theorems -/

/-- C3: if no video of the store has a non-empty (stripped) captions
value — in particular, if the store is empty — then both topic-modeler
`run`s return without writing the JSON file (`none`), leaving the
persisted file untouched. -/
theorem claim3_no_captions_no_write
    (vec : List String → List (List ℚ) × List String)
    (nmf : Nat → List (List ℚ) → List (List ℚ) × List (List ℚ))
    (tok : String → List String) (labelsOf : List String → List Nat)
    (kwOf : List String → List Nat → Nat → List String) (store : Store)
    (h : ∀ ap ∈ store, ∀ pv ∈ ap.2, ∀ vr ∈ pv.2, strippedCaptions vr.2 = "") :
    runNMF vec nmf store = none ∧ runBERT tok labelsOf kwOf store = none := by
  have h1 : captionEntries store = [] :=
    storeEntries_eq_nil fun ap hap pv hpv vr hvr => by
      simp [captionEntryOf, h ap hap pv hpv vr hvr]
  have h2 : sentenceEntries tok store = [] :=
    storeEntries_eq_nil fun ap hap pv hpv vr hvr => by
      simp [sentenceEntryOf, h ap hap pv hpv vr hvr]
  constructor
  · simp [runNMF, h1]
  · simp [runBERT, h2]

/-- C3 witness: a store whose only captions value is whitespace (and one
record with no captions at all) triggers the no-write path of both
modelers. -/
theorem claim3_witness :
    runNMF (fun _ => ([], [])) (fun _ _ => ([], []))
        [("A", [("PL", [("v1", ⟨some "  ", none, none⟩), ("v2", ⟨none, none, none⟩)])])] =
      none ∧
    runBERT (fun s => [s]) (fun _ => []) (fun _ _ _ => [])
        [("A", [("PL", [("v1", ⟨some "  ", none, none⟩), ("v2", ⟨none, none, none⟩)])])] =
      none :=
  claim3_no_captions_no_write (fun _ => ([], [])) (fun _ _ => ([], [])) (fun s => [s])
    (fun _ => []) (fun _ _ _ => [])
    [("A", [("PL", [("v1", ⟨some "  ", none, none⟩), ("v2", ⟨none, none, none⟩)])])]
    (by decide)

/-- C4: for every video present in the store, a successful transcript
fetch replaces its `captions` with the newline-join of the segment
texts, a failed fetch leaves its record exactly as it was (the exception
is caught per video, so every other video is still processed —
the conclusion holds for each video independently), and `run` always
overwrites the JSON file with the updated store. -/
theorem claim4_caption_updater (fetch : String → Except String (List TranscriptSeg))
    (store : Store) (t : Triple) (r : VideoRecord) (hrec : getRecord store t = some r) :
    getRecord (updateCaptions fetch store) t =
      some (match fetch t.2.2 with
        | Except.ok transcript =>
            r.withCaptions (String.intercalate "\n" (transcript.map (·.text)))
        | Except.error _ => r) ∧
    runCaptionUpdater fetch store = some (updateCaptions fetch store) := by
  refine ⟨?_, rfl⟩
  obtain ⟨a, p, v⟩ := t
  simp only [getRecord, Option.bind_eq_some] at hrec
  obtain ⟨pls, h1, vids, h2, h3⟩ := hrec
  simp only [getRecord, updateCaptions, alookup_map_keyed, h1, h2, h3, Option.map_some',
    Option.some_bind]

/-- C4 witness: a two-video store where `v1`'s fetch succeeds and `v2`'s
raises; `v1` gets the joined transcript, `v2` keeps its old record. -/
theorem claim4_witness :
    (getRecord
        (updateCaptions
          (fun v => if v = "v1" then Except.ok [⟨"hello"⟩, ⟨"world"⟩] else Except.error "boom")
          [("A", [("PL", [("v1", ⟨none, none, none⟩), ("v2", ⟨some "old", none, none⟩)])])])
        ("A", "PL", "v2") =
      some (match (if ("v2" : String) = "v1" then Except.ok [(⟨"hello"⟩ : TranscriptSeg), ⟨"world"⟩] else Except.error "boom") with
        | Except.ok transcript =>
            VideoRecord.withCaptions ⟨some "old", none, none⟩
              (String.intercalate "\n" (transcript.map (·.text)))
        | Except.error _ => ⟨some "old", none, none⟩)) ∧
    runCaptionUpdater
        (fun v => if v = "v1" then Except.ok [⟨"hello"⟩, ⟨"world"⟩] else Except.error "boom")
        [("A", [("PL", [("v1", ⟨none, none, none⟩), ("v2", ⟨some "old", none, none⟩)])])] =
      some (updateCaptions
        (fun v => if v = "v1" then Except.ok [⟨"hello"⟩, ⟨"world"⟩] else Except.error "boom")
        [("A", [("PL", [("v1", ⟨none, none, none⟩), ("v2", ⟨some "old", none, none⟩)])])]) :=
  claim4_caption_updater
    (fun v => if v = "v1" then Except.ok [⟨"hello"⟩, ⟨"world"⟩] else Except.error "boom")
    [("A", [("PL", [("v1", ⟨none, none, none⟩), ("v2", ⟨some "old", none, none⟩)])])]
    ("A", "PL", "v2") ⟨some "old", none, none⟩ (by decide)

/-- C8: the NMF pipeline is deterministic given the fixed seed — the
script always calls the factorization with `random_state = 42`, so any
two runs whose factorizations agree at seed 42 and whose extracted
captions lists coincide produce identical keyword lists, identical `W`,
and identical per-row assigned keyword strings. -/
theorem claim8_nmf_deterministic (vec : List String → List (List ℚ) × List String)
    (nmf₁ nmf₂ : Nat → List (List ℚ) → List (List ℚ) × List (List ℚ))
    (h42 : nmf₁ 42 = nmf₂ 42) (store₁ store₂ : Store)
    (hcap : (captionEntries store₁).map (·.2) = (captionEntries store₂).map (·.2)) :
    topicModelingNMF vec nmf₁ ((captionEntries store₁).map (·.2)) =
      topicModelingNMF vec nmf₂ ((captionEntries store₂).map (·.2)) ∧
    ∀ i : Nat,
      (topicModelingNMF vec nmf₁ ((captionEntries store₁).map (·.2))).1.getD
          (argmaxIdx ((topicModelingNMF vec nmf₁
            ((captionEntries store₁).map (·.2))).2.getD i [])) "" =
        (topicModelingNMF vec nmf₂ ((captionEntries store₂).map (·.2))).1.getD
          (argmaxIdx ((topicModelingNMF vec nmf₂
            ((captionEntries store₂).map (·.2))).2.getD i [])) "" := by
  have key : topicModelingNMF vec nmf₁ ((captionEntries store₁).map (·.2)) =
      topicModelingNMF vec nmf₂ ((captionEntries store₂).map (·.2)) := by
    rw [hcap]
    simp [topicModelingNMF, h42]
  exact ⟨key, fun i => by rw [key]⟩

/-- C8 witness: two stores that differ in structure and in unrelated
fields but carry the same captions yield identical modeling output. -/
theorem claim8_witness :
    topicModelingNMF (fun _ => ([[1]], ["a"])) (fun _ _ => ([[1]], [[1]]))
        ((captionEntries [("A", [("P", [("v", ⟨some "hello", none, none⟩)])])]).map (·.2)) =
      topicModelingNMF (fun _ => ([[1]], ["a"])) (fun _ _ => ([[1]], [[1]]))
        ((captionEntries
          [("B", [("Q", [("w", ⟨some " hello ", none, some "t"⟩)])])]).map (·.2)) :=
  (claim8_nmf_deterministic (fun _ => ([[1]], ["a"])) (fun _ _ => ([[1]], [[1]]))
    (fun _ _ => ([[1]], [[1]])) rfl
    [("A", [("P", [("v", ⟨some "hello", none, none⟩)])])]
    [("B", [("Q", [("w", ⟨some " hello ", none, some "t"⟩)])])] (by decide)).1

/-- C1 (amended): for every topic row of `H`, the produced keyword
string joins the terms at the `[-10:]` slice of the ascending argsort.
These are the (up to) ten highest-weighted indices — distinct, in range,
and every kept index weighs at least as much as every dropped one — but
they are joined in *ascending*, not descending, weight order: the
slicing performs no reversal. -/
theorem claim1_keywords_top10_ascending (terms : List String) (H : List (List ℚ)) (j : Nat)
    (hj : j < H.length) :
    (topicKeywordsNMF terms H).getD j "" =
      String.intercalate " " ((topTen (H.getD j [])).map fun i => terms.getD i "") ∧
    (topTen (H.getD j [])).length = min 10 (H.getD j []).length ∧
    List.Sorted (fun a b => (H.getD j []).getD a 0 ≤ (H.getD j []).getD b 0)
      (topTen (H.getD j [])) ∧
    (∀ i ∈ topTen (H.getD j []), i < (H.getD j []).length) ∧
    (topTen (H.getD j [])).Nodup ∧
    ∀ i ∈ topTen (H.getD j []), ∀ k < (H.getD j []).length, k ∉ topTen (H.getD j []) →
      (H.getD j []).getD k 0 ≤ (H.getD j []).getD i 0 := by
  refine ⟨?_, topTen_length _, topTen_sorted _, topTen_mem_lt _, topTen_nodup _,
    topTen_maximal _⟩
  simp only [topicKeywordsNMF]
  rw [List.getD_eq_getElem _ _ (by simpa using hj), List.getElem_map,
    List.getD_eq_getElem _ _ hj]

/-- C1 witness for the amended claim, at a three-term vocabulary and one
topic row. -/
theorem claim1_witness :
    (topicKeywordsNMF ["a", "b", "c"] [[3, 1, 2]]).getD 0 "" =
      String.intercalate " " ((topTen ([[(3 : ℚ), 1, 2]].getD 0 [])).map
        fun i => ["a", "b", "c"].getD i "") ∧
    (topTen ([[(3 : ℚ), 1, 2]].getD 0 [])).length =
      min 10 ([[(3 : ℚ), 1, 2]].getD 0 []).length ∧
    List.Sorted
      (fun a b =>
        ([[(3 : ℚ), 1, 2]].getD 0 []).getD a 0 ≤ ([[(3 : ℚ), 1, 2]].getD 0 []).getD b 0)
      (topTen ([[(3 : ℚ), 1, 2]].getD 0 [])) ∧
    (∀ i ∈ topTen ([[(3 : ℚ), 1, 2]].getD 0 []), i < ([[(3 : ℚ), 1, 2]].getD 0 []).length) ∧
    (topTen ([[(3 : ℚ), 1, 2]].getD 0 [])).Nodup ∧
    ∀ i ∈ topTen ([[(3 : ℚ), 1, 2]].getD 0 []),
      ∀ k < ([[(3 : ℚ), 1, 2]].getD 0 []).length, k ∉ topTen ([[(3 : ℚ), 1, 2]].getD 0 []) →
        ([[(3 : ℚ), 1, 2]].getD 0 []).getD k 0 ≤ ([[(3 : ℚ), 1, 2]].getD 0 []).getD i 0 :=
  claim1_keywords_top10_ascending ["a", "b", "c"] [[3, 1, 2]] 0 (by decide)

/-- C1, counterexample to the claim as stated: with vocabulary
`["a", "b"]` and the single topic row `(1, 2)`, the source joins the
top terms in ascending weight order ("a b"), while the claimed
descending order ("reversed implicitly by the slicing") would give
"b a"; the same is shown through `topic_modeling` with a concrete
factorization output. -/
theorem claim1_counterexample :
    (topicModelingNMF (fun _ => ([[1, 1]], ["a", "b"])) (fun _ _ => ([[1]], [[1, 2]]))
        ["caption text"]).1 = ["a b"] ∧
    topicKeywordsSpecDescending ["a", "b"] [[1, 2]] = ["b a"] ∧
    topicKeywordsNMF ["a", "b"] [[1, 2]] ≠ topicKeywordsSpecDescending ["a", "b"] [[1, 2]] := by
  refine ⟨?_, ?_, ?_⟩ <;> decide

/-- C10: both `extract_captions` implementations return a captions list
and a video-id map of equal length (one entry per caption for the NMF
modeler, one per sentence for the embedding modeler), and — for a
well-formed store — every triple in the map names a record present in
the loaded store, so the row indexing and the nested dictionary lookups
performed by `assign_topics` succeed. -/
theorem claim10_extract_safe (tok : String → List String) (store : Store) (hwf : WF store) :
    ((captionEntries store).map (·.2)).length = ((captionEntries store).map (·.1)).length ∧
    ((sentenceEntries tok store).map (·.2)).length =
      ((sentenceEntries tok store).map (·.1)).length ∧
    (∀ t ∈ (captionEntries store).map (·.1), (getRecord store t).isSome) ∧
    ∀ t ∈ (sentenceEntries tok store).map (·.1), (getRecord store t).isSome := by
  refine ⟨by simp, by simp, ?_, ?_⟩
  · intro t ht
    obtain ⟨e, he, het⟩ := List.mem_map.mp ht
    have := getRecord_isSome_of_mem_storeEntries captionEntryOf_key hwf he
    rwa [het] at this
  · intro t ht
    obtain ⟨e, he, het⟩ := List.mem_map.mp ht
    have := getRecord_isSome_of_mem_storeEntries (sentenceEntryOf_key tok) hwf he
    rwa [het] at this

/-- C10 witness: a two-author store with a captioned and an uncaptioned
video, sentences split on periods being irrelevant to the statement. -/
theorem claim10_witness :
    ((captionEntries
        [("A", [("P", [("v1", ⟨some "hi", none, none⟩), ("v2", ⟨none, none, none⟩)])]),
          ("B", [("Q", [("v3", ⟨some " x ", none, none⟩)])])]).map (·.2)).length =
      ((captionEntries
        [("A", [("P", [("v1", ⟨some "hi", none, none⟩), ("v2", ⟨none, none, none⟩)])]),
          ("B", [("Q", [("v3", ⟨some " x ", none, none⟩)])])]).map (·.1)).length ∧
    ((sentenceEntries (fun s => [s, s])
        [("A", [("P", [("v1", ⟨some "hi", none, none⟩), ("v2", ⟨none, none, none⟩)])]),
          ("B", [("Q", [("v3", ⟨some " x ", none, none⟩)])])]).map (·.2)).length =
      ((sentenceEntries (fun s => [s, s])
        [("A", [("P", [("v1", ⟨some "hi", none, none⟩), ("v2", ⟨none, none, none⟩)])]),
          ("B", [("Q", [("v3", ⟨some " x ", none, none⟩)])])]).map (·.1)).length ∧
    (∀ t ∈ (captionEntries
        [("A", [("P", [("v1", ⟨some "hi", none, none⟩), ("v2", ⟨none, none, none⟩)])]),
          ("B", [("Q", [("v3", ⟨some " x ", none, none⟩)])])]).map (·.1),
      (getRecord
        [("A", [("P", [("v1", ⟨some "hi", none, none⟩), ("v2", ⟨none, none, none⟩)])]),
          ("B", [("Q", [("v3", ⟨some " x ", none, none⟩)])])] t).isSome) ∧
    ∀ t ∈ (sentenceEntries (fun s => [s, s])
        [("A", [("P", [("v1", ⟨some "hi", none, none⟩), ("v2", ⟨none, none, none⟩)])]),
          ("B", [("Q", [("v3", ⟨some " x ", none, none⟩)])])]).map (·.1),
      (getRecord
        [("A", [("P", [("v1", ⟨some "hi", none, none⟩), ("v2", ⟨none, none, none⟩)])]),
          ("B", [("Q", [("v3", ⟨some " x ", none, none⟩)])])] t).isSome :=
  claim10_extract_safe (fun s => [s, s])
    [("A", [("P", [("v1", ⟨some "hi", none, none⟩), ("v2", ⟨none, none, none⟩)])]),
      ("B", [("Q", [("v3", ⟨some " x ", none, none⟩)])])] (by decide)

/-- C9: the topic modelers write at most the `topic` field.  For every
record: whenever a run writes a store, the record is still present with
its `captions` and `comments` unchanged; and a record whose captions
are absent, empty or whitespace-only is excluded from both extractions
and left entirely unchanged — no `topic` is added to it — even when
other videos receive topics. -/
theorem claim9_topic_only_frame (vec : List String → List (List ℚ) × List String)
    (nmf : Nat → List (List ℚ) → List (List ℚ) × List (List ℚ))
    (tok : String → List String) (labelsOf : List String → List Nat)
    (kwOf : List String → List Nat → Nat → List String) (store : Store) (hwf : WF store)
    (t : Triple) (r : VideoRecord) (hrec : getRecord store t = some r) :
    (strippedCaptions r = "" →
      t ∉ (captionEntries store).map (·.1) ∧ t ∉ (sentenceEntries tok store).map (·.1)) ∧
    (∀ st', runNMF vec nmf store = some st' →
      ∃ r', getRecord st' t = some r' ∧ r'.captions = r.captions ∧
        r'.comments = r.comments ∧ (strippedCaptions r = "" → r' = r)) ∧
    ∀ st', runBERT tok labelsOf kwOf store = some st' →
      ∃ r', getRecord st' t = some r' ∧ r'.captions = r.captions ∧
        r'.comments = r.comments ∧ (strippedCaptions r = "" → r' = r) := by
  obtain ⟨a, p, v⟩ := t
  have hnotN : strippedCaptions r = "" → (a, p, v) ∉ (captionEntries store).map (·.1) := by
    intro hc hmem
    obtain ⟨E₁, E₂, heq, h₁, h₂⟩ := storeEntries_decomp captionEntryOf_key hwf hrec
    rw [show captionEntryOf (a, p, v) r = [] from by simp [captionEntryOf, hc]] at heq
    obtain ⟨e, he, het⟩ := List.mem_map.mp hmem
    rw [show captionEntries store = storeEntries captionEntryOf store from rfl, heq] at he
    rcases List.mem_append.mp (by simpa using he) with h | h
    · exact h₁ e h het
    · exact h₂ e h het
  have hnotB : strippedCaptions r = "" →
      (a, p, v) ∉ (sentenceEntries tok store).map (·.1) := by
    intro hc hmem
    obtain ⟨E₁, E₂, heq, h₁, h₂⟩ := storeEntries_decomp (sentenceEntryOf_key tok) hwf hrec
    rw [show sentenceEntryOf tok (a, p, v) r = [] from by simp [sentenceEntryOf, hc]] at heq
    obtain ⟨e, he, het⟩ := List.mem_map.mp hmem
    rw [show sentenceEntries tok store = storeEntries (sentenceEntryOf tok) store from rfl,
      heq] at he
    rcases List.mem_append.mp (by simpa using he) with h | h
    · exact h₁ e h het
    · exact h₂ e h het
  have main : ∀ (videoIdMap : List Triple) (g : Nat → String),
      (strippedCaptions r = "" → (a, p, v) ∉ videoIdMap) →
      ∃ r', getRecord (assignFold g store videoIdMap.enum) (a, p, v) = some r' ∧
        r'.captions = r.captions ∧ r'.comments = r.comments ∧
        (strippedCaptions r = "" → r' = r) := by
    intro videoIdMap g hnm
    by_cases hmem : (a, p, v) ∈ videoIdMap
    · refine ⟨r.withTopic (g (lastIdxOf videoIdMap (a, p, v))), ?_, rfl, rfl, ?_⟩
      · rw [getRecord_assignFold_enum g hmem store, hrec]
        rfl
      · intro hc
        exact absurd hmem (hnm hc)
    · refine ⟨r, ?_, rfl, rfl, fun _ => rfl⟩
      rw [show videoIdMap.enum = videoIdMap.enumFrom 0 from rfl,
        getRecord_assignFold_of_forall_ne g (snd_ne_of_mem_enumFrom hmem 0) store]
      exact hrec
  refine ⟨fun hc => ⟨hnotN hc, hnotB hc⟩, ?_, ?_⟩
  · intro st' hst'
    by_cases hemp : (((captionEntries store).map (·.2)).isEmpty : Bool)
    · simp [runNMF, hemp] at hst'
    · have hst : st' = assignTopicsNMF store ((captionEntries store).map (·.1))
          (topicModelingNMF vec nmf ((captionEntries store).map (·.2))).2
          (topicModelingNMF vec nmf ((captionEntries store).map (·.2))).1 := by
        simp only [runNMF, if_neg hemp, Option.some.injEq] at hst'
        exact hst'.symm
      rw [hst, assignTopicsNMF_eq_assignFold]
      exact main _ _ fun hc hm => hnotN hc hm
  · intro st' hst'
    by_cases hemp : (((sentenceEntries tok store).map (·.2)).isEmpty : Bool)
    · simp [runBERT, hemp] at hst'
    · have hst : st' = assignTopicsBERT store ((sentenceEntries tok store).map (·.1))
          (labelsOf ((sentenceEntries tok store).map (·.2)))
          (kwOf ((sentenceEntries tok store).map (·.2))
            (labelsOf ((sentenceEntries tok store).map (·.2)))) := by
        simp only [runBERT, if_neg hemp, Option.some.injEq] at hst'
        exact hst'.symm
      rw [hst, assignTopicsBERT_eq_assignFold]
      exact main _ _ fun hc hm => hnotB hc hm

/-- C9 witness: in `demoStore`, the whitespace-captioned video `v2` is
excluded from both extractions and untouched by both runs, while the
run may write topics for `v1`. -/
theorem claim9_witness :
    (strippedCaptions ⟨some "  ", none, none⟩ = "" →
      ("A", "P", "v2") ∉ (captionEntries demoStore).map (·.1) ∧
        ("A", "P", "v2") ∉ (sentenceEntries (fun s => [s]) demoStore).map (·.1)) ∧
    (∀ st', runNMF (fun cl => (cl.map fun _ => [1], ["hi", "there"]))
        (fun _ X => (X, [[1, 2]])) demoStore = some st' →
      ∃ r', getRecord st' ("A", "P", "v2") = some r' ∧
        r'.captions = VideoRecord.captions ⟨some "  ", none, none⟩ ∧
        r'.comments = VideoRecord.comments ⟨some "  ", none, none⟩ ∧
        (strippedCaptions ⟨some "  ", none, none⟩ = "" → r' = ⟨some "  ", none, none⟩)) ∧
    ∀ st', runBERT (fun s => [s]) (fun cl => cl.map fun _ => 0) (fun _ _ _ => ["kw"])
        demoStore = some st' →
      ∃ r', getRecord st' ("A", "P", "v2") = some r' ∧
        r'.captions = VideoRecord.captions ⟨some "  ", none, none⟩ ∧
        r'.comments = VideoRecord.comments ⟨some "  ", none, none⟩ ∧
        (strippedCaptions ⟨some "  ", none, none⟩ = "" → r' = ⟨some "  ", none, none⟩) :=
  claim9_topic_only_frame (fun cl => (cl.map fun _ => [1], ["hi", "there"]))
    (fun _ X => (X, [[1, 2]])) (fun s => [s]) (fun cl => cl.map fun _ => 0)
    (fun _ _ _ => ["kw"]) demoStore (by decide) ("A", "P", "v2") ⟨some "  ", none, none⟩
    (by decide)

/-- C7: in the NMF modeler, a captioned video occurs exactly once in the
video-id map; `assign_topics` writes to its record the keyword string
`topic_keywords[W[i].argmax()]` for its row `i`, that argmax carries a
maximal weight of the row, and the keyword string is a space-join of
vocabulary terms whenever the `H` rows have the vocabulary's width (in
particular, for a one-video store with one topic it is a space-joined
subset of the terms extracted from that video's caption). -/
theorem claim7_nmf_argmax_assignment (store : Store) (hwf : WF store)
    (a p v : String) (r : VideoRecord) (hrec : getRecord store (a, p, v) = some r)
    (hc : strippedCaptions r ≠ "") (terms : List String) (H W : List (List ℚ))
    (hrow : ∀ row ∈ H, row.length = terms.length)
    (i : Nat) (hi : i = lastIdxOf ((captionEntries store).map (·.1)) (a, p, v))
    (j : Nat) (hj : j = argmaxIdx (W.getD i [])) (hjH : j < H.length) :
    ((captionEntries store).map (·.1)).countP (fun x => decide (x = (a, p, v))) = 1 ∧
    getRecord (assignTopicsNMF store ((captionEntries store).map (·.1)) W
        (topicKeywordsNMF terms H)) (a, p, v) =
      some (r.withTopic (String.intercalate " "
        ((topTen (H.getD j [])).map fun ix => terms.getD ix ""))) ∧
    (W.getD i [] ≠ [] →
      ∀ k < (W.getD i []).length, (W.getD i []).getD k 0 ≤ (W.getD i []).getD j 0) ∧
    ∀ s ∈ (topTen (H.getD j [])).map fun ix => terms.getD ix "", s ∈ terms := by
  obtain ⟨E₁, E₂, heq, h₁, h₂⟩ := storeEntries_decomp captionEntryOf_key hwf hrec
  rw [show captionEntryOf (a, p, v) r = [((a, p, v), strippedCaptions r)] from by
    simp [captionEntryOf, hc]] at heq
  have heq' : captionEntries store = E₁ ++ ((a, p, v), strippedCaptions r) :: E₂ := by
    rw [show captionEntries store = storeEntries captionEntryOf store from rfl, heq]
    simp
  have hmem : (a, p, v) ∈ (captionEntries store).map (·.1) := by
    rw [heq']
    simp
  refine ⟨?_, ?_, ?_, ?_⟩
  · rw [heq']
    simp only [List.map_append, List.map_cons, List.countP_append, List.countP_cons]
    rw [List.countP_eq_zero.mpr fun x hx => by
        obtain ⟨e, he, hex⟩ := List.mem_map.mp hx
        simpa [hex] using h₁ e he,
      List.countP_eq_zero.mpr fun x hx => by
        obtain ⟨e, he, hex⟩ := List.mem_map.mp hx
        simpa [hex] using h₂ e he]
    simp
  · rw [assignTopicsNMF_eq_assignFold, getRecord_assignFold_enum _ hmem store, hrec, ← hi,
      ← hj]
    have hkw : (topicKeywordsNMF terms H).getD j "" =
        String.intercalate " " ((topTen (H.getD j [])).map fun ix => terms.getD ix "") := by
      simp only [topicKeywordsNMF]
      rw [List.getD_eq_getElem _ _ (by simpa using hjH), List.getElem_map,
        List.getD_eq_getElem _ _ hjH]
    rw [hkw]
    rfl
  · intro hne k hk
    rw [hj]
    exact (argmaxIdx_spec hne).2 k hk
  · intro s hs
    obtain ⟨ix, hix, hxs⟩ := List.mem_map.mp hs
    have hlt : ix < (H.getD j []).length := topTen_mem_lt _ ix hix
    have hrowj : (H.getD j []).length = terms.length := by
      refine hrow _ ?_
      rw [List.getD_eq_getElem _ _ hjH]
      exact List.getElem_mem _
    rw [← hxs, List.getD_eq_getElem _ _ (by omega)]
    exact List.getElem_mem _

/-- C7 witness: in `demoStore` the captioned video `v1` is row 0; with
`W = [[3, 1]]` its argmax is topic 0 and it receives that topic's
keyword string, drawn from the vocabulary. -/
theorem claim7_witness :
    ((captionEntries demoStore).map (·.1)).countP
        (fun x => decide (x = ("A", "P", "v1"))) = 1 ∧
    getRecord (assignTopicsNMF demoStore ((captionEntries demoStore).map (·.1)) [[3, 1]]
        (topicKeywordsNMF ["hi", "there"] [[1, 2]])) ("A", "P", "v1") =
      some (VideoRecord.withTopic ⟨some "hi there", none, none⟩ (String.intercalate " "
        ((topTen ([[(1 : ℚ), 2]].getD 0 [])).map fun ix => ["hi", "there"].getD ix ""))) ∧
    ([[(3 : ℚ), 1]].getD 0 [] ≠ [] →
      ∀ k < ([[(3 : ℚ), 1]].getD 0 []).length,
        ([[(3 : ℚ), 1]].getD 0 []).getD k 0 ≤ ([[(3 : ℚ), 1]].getD 0 []).getD 0 0) ∧
    ∀ s ∈ (topTen ([[(1 : ℚ), 2]].getD 0 [])).map fun ix => ["hi", "there"].getD ix "",
      s ∈ ["hi", "there"] :=
  claim7_nmf_argmax_assignment demoStore (by decide) "A" "P" "v1"
    ⟨some "hi there", none, none⟩ (by decide) (by decide) ["hi", "there"] [[1, 2]] [[3, 1]]
    (by decide) 0 (by decide) 0 (by decide) (by decide)

theorem findIdx_append_of_forall_false {α : Type} (p : α → Bool) {l₁ : List α}
    (h : ∀ x ∈ l₁, p x = false) (l₂ : List α) :
    (l₁ ++ l₂).findIdx p = l₁.length + l₂.findIdx p := by
  induction l₁ with
  | nil => simp
  | cons a l ih =>
    simp only [List.cons_append, List.findIdx_cons, h a (by simp)]
    rw [ih fun x hx => h x (by simp [hx])]
    simp [Nat.succ_add]

theorem getD_length_sub_one {α : Type} (d : α) :
    ∀ (S : List α) (d' : α), S ≠ [] → S.getD (S.length - 1) d = S.getLastD d'
  | [], _, h => absurd rfl h
  | [x], d', _ => by simp
  | x :: y :: rest, d', _ => by
    have ih := getD_length_sub_one d (y :: rest) x (by simp)
    simpa using ih

/-- C2: in the embedding modeler, a video whose stripped captions split
into two or more sentences ends up with the topic of the cluster of its
*last* sentence in iteration order: every earlier sentence's assignment
is overwritten, so the stored string is
`" ".join(topic_keywords[labels[i]])` for `i` the index of the video's
last map entry — whose sentence is the last sentence of its
tokenization — and no aggregation or majority vote takes place. -/
theorem claim2_bert_last_sentence_wins (tok : String → List String) (store : Store)
    (hwf : WF store) (a p v : String) (r : VideoRecord)
    (hrec : getRecord store (a, p, v) = some r) (hc : strippedCaptions r ≠ "")
    (hn : 2 ≤ (tok (strippedCaptions r)).length) (labels : List Nat)
    (kw : Nat → List String) (i : Nat)
    (hi : i = lastIdxOf ((sentenceEntries tok store).map (·.1)) (a, p, v)) :
    getRecord (assignTopicsBERT store ((sentenceEntries tok store).map (·.1)) labels kw)
        (a, p, v) =
      some (r.withTopic (String.intercalate " " (kw (labels.getD i 0)))) ∧
    ((sentenceEntries tok store).map (·.2)).getD i "" =
      (tok (strippedCaptions r)).getLastD "" := by
  obtain ⟨E₁, E₂, heq, h₁, h₂⟩ := storeEntries_decomp (sentenceEntryOf_key tok) hwf hrec
  rw [show sentenceEntryOf tok (a, p, v) r =
      (tok (strippedCaptions r)).map (fun s => ((a, p, v), s)) from by
    simp [sentenceEntryOf, hc]] at heq
  have heq' : sentenceEntries tok store =
      E₁ ++ (tok (strippedCaptions r)).map (fun s => ((a, p, v), s)) ++ E₂ := heq
  have hSne : tok (strippedCaptions r) ≠ [] := by
    intro hcon
    rw [hcon] at hn
    simp at hn
  have hmapfst : (sentenceEntries tok store).map (·.1) =
      E₁.map (·.1) ++ (tok (strippedCaptions r)).map (fun _ => ((a, p, v) : Triple)) ++
        E₂.map (·.1) := by
    rw [heq']
    simp [List.map_map, Function.comp_def]
  have hmem : (a, p, v) ∈ (sentenceEntries tok store).map (·.1) := by
    rw [hmapfst]
    rcases hS : tok (strippedCaptions r) with _ | ⟨s₀, S₁⟩
    · exact absurd hS hSne
    · simp
  have hidx : lastIdxOf ((sentenceEntries tok store).map (·.1)) (a, p, v) =
      E₁.length + (tok (strippedCaptions r)).length - 1 := by
    rw [lastIdxOf, hmapfst]
    have hrev : (E₁.map (·.1) ++
          (tok (strippedCaptions r)).map (fun _ => ((a, p, v) : Triple)) ++
          E₂.map (·.1)).reverse =
        (E₂.map (·.1)).reverse ++
          (((tok (strippedCaptions r)).map (fun _ => ((a, p, v) : Triple))).reverse ++
            (E₁.map (·.1)).reverse) := by
      simp [List.reverse_append]
    rw [hrev, findIdx_append_of_forall_false _ (fun x hx => by
      obtain ⟨e, he, hex⟩ := List.mem_map.mp (List.mem_reverse.mp hx)
      simpa [hex] using h₂ e he) _]
    have hhead : ∃ tl, (((tok (strippedCaptions r)).map
          (fun _ => ((a, p, v) : Triple))).reverse ++ (E₁.map (·.1)).reverse) =
        ((a, p, v) : Triple) :: tl := by
      rcases hSrev : ((tok (strippedCaptions r)).map
          (fun _ => ((a, p, v) : Triple))).reverse with _ | ⟨z, zs⟩
      · exfalso
        apply hSne
        have := congrArg List.length hSrev
        simp at this
        exact this
      · have hz : z = (a, p, v) := by
          have hzmem : z ∈ ((tok (strippedCaptions r)).map
              (fun _ => ((a, p, v) : Triple))).reverse := by
            rw [hSrev]
            simp
          obtain ⟨s, -, hzz⟩ := List.mem_map.mp (List.mem_reverse.mp hzmem)
          exact hzz.symm
        exact ⟨zs ++ (E₁.map (·.1)).reverse, by rw [hz]; simp⟩
    obtain ⟨tl, htl⟩ := hhead
    rw [htl]
    simp only [List.findIdx_cons, decide_eq_true_eq, List.length_append, List.length_map,
      List.length_reverse]
    norm_num
    omega
  constructor
  · rw [assignTopicsBERT_eq_assignFold, getRecord_assignFold_enum _ hmem store, hrec, ← hi]
    rfl
  · have hmapsnd : (sentenceEntries tok store).map (·.2) =
        E₁.map (·.2) ++ (tok (strippedCaptions r) ++ E₂.map (·.2)) := by
      rw [heq']
      simp [List.map_map, Function.comp_def]
    rw [hmapsnd, hi, hidx]
    rw [List.getD_append_right _ _ _ _ (by simp; omega)]
    have hsub : E₁.length + (tok (strippedCaptions r)).length - 1 -
        (E₁.map (·.2)).length = (tok (strippedCaptions r)).length - 1 := by
      simp only [List.length_map]
      omega
    rw [hsub, List.getD_append _ _ _ _ (by omega)]
    exact getD_length_sub_one "" _ "" hSne

/-- C2 witness: `v1`'s captions split into two sentences landing in
clusters 0 and 1; the stored topic is cluster 1's keyword string — the
cluster of the last sentence — not any aggregate. -/
theorem claim2_witness :
    getRecord (assignTopicsBERT demoStore
        ((sentenceEntries (fun s => [s, s ++ "!"]) demoStore).map (·.1)) [0, 1]
        (fun n => if n = 0 then ["first"] else ["second"])) ("A", "P", "v1") =
      some (VideoRecord.withTopic ⟨some "hi there", none, none⟩ (String.intercalate " "
        ((fun n => if n = 0 then ["first"] else ["second"]) ([0, 1].getD 1 0)))) ∧
    ((sentenceEntries (fun s => [s, s ++ "!"]) demoStore).map (·.2)).getD 1 "" =
      ((fun s => [s, s ++ "!"]) (strippedCaptions ⟨some "hi there", none, none⟩)).getLastD
        "" :=
  claim2_bert_last_sentence_wins (fun s => [s, s ++ "!"]) demoStore (by decide) "A" "P" "v1"
    ⟨some "hi there", none, none⟩ (by decide) (by decide) (by decide) [0, 1]
    (fun n => if n = 0 then ["first"] else ["second"]) 1 (by decide)

/-- C5: comment pagination's behaviour is fixed entirely by the
endpoint's answers at `maxResults = 100` (the page-chain hypothesis
constrains nothing else): the loop follows continuation tokens until a
response carries none, collecting one record per top-level comment in
page/item order; and when the whole extraction succeeds, the collected
list — with `VideoID` stripped to `{Timestamp, Comment}` — replaces the
record's previous `comments` value. -/
theorem claim5_comment_collection
    (api : String → Nat → Option String → Except String CommentPage) (fuel : Nat)
    (store st' : Store) (t : Triple) (r : VideoRecord) (ps : List CommentPage)
    (hchain : PageChain (api t.2.2) none ps) (hfuel : ps.length ≤ fuel)
    (hrec : getRecord store t = some r)
    (hex : extractComments api fuel store = some (Except.ok st')) :
    getCommentsForVideo api fuel t.2.2 = some (Except.ok (ps.flatMap (pageRecs t.2.2))) ∧
    getRecord st' t = some (r.withComments
      ((ps.flatMap (pageRecs t.2.2)).map CommentRec.toEntry)) := by
  have hget : getCommentsForVideo api fuel t.2.2 =
      some (Except.ok (ps.flatMap (pageRecs t.2.2))) := by
    rw [getCommentsForVideo]
    simpa using getCommentsLoop_chain hchain hfuel []
  refine ⟨hget, ?_⟩
  obtain ⟨cs, hcs, hrec'⟩ := extractComments_ok_getRecord hex hrec
  rw [hget] at hcs
  have hcseq : ps.flatMap (pageRecs t.2.2) = cs := by simpa using hcs
  rw [← hcseq] at hrec'
  exact hrec'

/-- C5 witness: a two-page chain (sizes 1 and 1) for the only video;
the run stores both comments, in order, stripped to
`{Timestamp, Comment}`. -/
theorem claim5_witness :
    getCommentsForVideo
        (fun _ _ tok => match tok with
          | none => Except.ok ⟨[⟨"t1", "c1"⟩], some "p2"⟩
          | some _ => Except.ok ⟨[⟨"t2", "c2"⟩], none⟩) 2 "v1" =
      some (Except.ok ([⟨[⟨"t1", "c1"⟩], some "p2"⟩,
        ⟨[⟨"t2", "c2"⟩], none⟩].flatMap (pageRecs "v1"))) ∧
    getRecord [("A", [("P", [("v1",
        ⟨none, some [⟨"t1", "c1"⟩, ⟨"t2", "c2"⟩], none⟩)])])] ("A", "P", "v1") =
      some (VideoRecord.withComments ⟨none, none, none⟩
        ((([⟨[⟨"t1", "c1"⟩], some "p2"⟩, ⟨[⟨"t2", "c2"⟩], none⟩] :
          List CommentPage).flatMap (pageRecs "v1")).map CommentRec.toEntry)) :=
  claim5_comment_collection
    (fun _ _ tok => match tok with
      | none => Except.ok ⟨[⟨"t1", "c1"⟩], some "p2"⟩
      | some _ => Except.ok ⟨[⟨"t2", "c2"⟩], none⟩) 2
    [("A", [("P", [("v1", ⟨none, none, none⟩)])])]
    [("A", [("P", [("v1", ⟨none, some [⟨"t1", "c1"⟩, ⟨"t2", "c2"⟩], none⟩)])])]
    ("A", "P", "v1") ⟨none, none, none⟩
    [⟨[⟨"t1", "c1"⟩], some "p2"⟩, ⟨[⟨"t2", "c2"⟩], none⟩]
    ⟨rfl, "p2", rfl, rfl, rfl⟩ (by decide) (by decide) (by rfl)

/-- C6: an exception raised during comment pagination is caught nowhere
in the component: whenever any video's pagination raises, the run never
reaches `save_data`, so the store is not written (`none`); and when
every video before the failing one succeeded, the traversal's overall
result is exactly that exception — videos after it contribute nothing. -/
theorem claim6_comment_error_aborts
    (api : String → Nat → Option String → Except String CommentPage) (fuel : Nat)
    (store : Store) (v e : String) (hv : v ∈ videoIdsInOrder store)
    (he : getCommentsForVideo api fuel v = some (Except.error e)) :
    runCommentExtractor api fuel store = none ∧
    (FirstErr api fuel e (videoIdsInOrder store) →
      extractComments api fuel store = some (Except.error e)) := by
  refine ⟨?_, extractComments_firstErr⟩
  rcases hx : extractComments api fuel store with _ | ex
  · simp [runCommentExtractor, hx]
  · rcases ex with e' | st'
    · simp [runCommentExtractor, hx]
    · exfalso
      obtain ⟨cs, hcs⟩ := extractComments_ok_all hx v hv
      rw [he] at hcs
      simp at hcs

/-- C6 witness: `v2`'s pagination raises while `v1` succeeds and `v3`
follows; the run writes nothing. -/
theorem claim6_witness :
    runCommentExtractor
        (fun v _ _ => if v = "v2" then Except.error "quota" else Except.ok ⟨[], none⟩) 1
        [("A", [("P", [("v1", ⟨none, none, none⟩), ("v2", ⟨none, none, none⟩),
          ("v3", ⟨none, none, none⟩)])])] = none ∧
    (FirstErr
        (fun v _ _ => if v = "v2" then Except.error "quota" else Except.ok ⟨[], none⟩) 1
        "quota"
        (videoIdsInOrder [("A", [("P", [("v1", ⟨none, none, none⟩),
          ("v2", ⟨none, none, none⟩), ("v3", ⟨none, none, none⟩)])])]) →
      extractComments
        (fun v _ _ => if v = "v2" then Except.error "quota" else Except.ok ⟨[], none⟩) 1
        [("A", [("P", [("v1", ⟨none, none, none⟩), ("v2", ⟨none, none, none⟩),
          ("v3", ⟨none, none, none⟩)])])] = some (Except.error "quota")) :=
  claim6_comment_error_aborts
    (fun v _ _ => if v = "v2" then Except.error "quota" else Except.ok ⟨[], none⟩) 1
    [("A", [("P", [("v1", ⟨none, none, none⟩), ("v2", ⟨none, none, none⟩),
      ("v3", ⟨none, none, none⟩)])])] "v2" "quota" (by decide) (by rfl)

end YTPipeline
